import Mathlib

/-!
Verification of the minesweeper-bot repository against its specification.

The development shallowly embeds the relevant parts of the Rust sources:

* namespace `Mine`  : `src/minesweeper/field.rs` (struct `Field`, the newest
  mine-field revision; `src/mine_field.rs` implements the same algorithms).
* namespace `MineOld` : `src/minesweeper.rs` (struct `MineField`, the older
  revision with its own `interact` returning an `InteractResult`).
* namespace `Oth`   : `src/othello.rs` (struct `Othello`) together with the
  bounds-check-after-step anchor scan of `src/othello/board.rs`.
* namespace `Coop`  : `src/coop_game.rs` (struct `CoopGame`).

Machine integers (`u32`, `usize`, `i32`) are embedded as `Nat`/`Int`; none of
the embedded quantities can overflow their Rust types on the inputs the
theorems quantify over.  Rust `Vec` cell stores are embedded as total maps
keyed by the coordinate; the flat index `i` of the source corresponds to the
coordinate `(i / columns, i % columns)`.  Randomness (mine placement) is
externalized: the list of flat indices produced by `rand::seq::index::sample`
is passed as an explicit argument.
-/

namespace Mine

/-- Coordinates, as in `game.rs`: `pub struct Coord(pub i32, pub i32)`. -/
abbrev Coord : Type := Int × Int

/-- Cell state of `field.rs`: `enum State { Covered, Uncovered, Exploded }`. -/
inductive State where
  | Covered
  | Uncovered
  | Exploded
deriving DecidableEq

/-- Cell value of `field.rs`: `enum CellValue { Mine, Number(u32) }`. -/
inductive CellValue where
  | Mine
  | Number (k : Nat)
deriving DecidableEq

/-- `struct Cell { value: CellValue, state: State }`. -/
structure Cell where
  value : CellValue
  state : State
deriving DecidableEq

/-- `impl Default for Cell`: `Number(0)`, `Covered`. -/
def Cell.default : Cell := ⟨CellValue.Number 0, State.Covered⟩

/-- `struct MineFieldStats` of `field.rs`. -/
structure Stats where
  uncovered_blank : Nat
  covered_mine : Nat
  exploded : Nat
deriving DecidableEq

/-- `struct Field` of `field.rs`.  The backing `Vec<Cell>` is embedded as a
total map from coordinates to cells (see the file comment). -/
structure Field where
  initialized : Bool
  rows : Nat
  columns : Nat
  mines : Nat
  stats : Stats
  data : Coord → Cell

/-- Bounds test used throughout `field.rs` and `game.rs`:
`(0..rows).contains(&row) && (0..columns).contains(&column)`. -/
def containsB (rows columns : Nat) (c : Coord) : Bool :=
  decide (0 ≤ c.1) && decide (c.1 < (rows : Int)) &&
    (decide (0 ≤ c.2) && decide (c.2 < (columns : Int)))

/-- The 9 offset pairs `(j, i)` in the order `iproduct!(-1..=1, -1..=1)`
produces them in `neighborhood_of`. -/
def offsetPairs : List (Int × Int) :=
  [(-1, -1), (-1, 0), (-1, 1), (0, -1), (0, 0), (0, 1), (1, -1), (1, 0), (1, 1)]

/-- `fn neighborhood_of(coord, rows, columns)` of `field.rs`: the in-bounds
Moore neighborhood, the center excluded; an offset pair `(j, i)` yields the
candidate `(coord.0 + i, coord.1 + j)`. -/
def neighborhood_of (coord : Coord) (rows columns : Nat) : List Coord :=
  (offsetPairs.filterMap fun ji =>
      if ji.2 ≠ 0 ∨ ji.1 ≠ 0 then some (coord.1 + ji.2, coord.2 + ji.1) else none).filter
    (containsB rows columns)

/-- Cell lookup, `impl Index<Coord> for Field`. -/
def Field.get (f : Field) (c : Coord) : Cell := f.data c

/-- Cell write, `impl IndexMut<Coord> for Field`. -/
def Field.setCell (f : Field) (c : Coord) (cell : Cell) : Field :=
  { f with data := Function.update f.data c cell }

/-- The body of the reveal loop of `Field::reveal` for one covered cell:
set `state = Uncovered` and update the stats (`covered_mine -= 1` for a mine,
else `uncovered_blank += 1`). -/
def revealStep (f : Field) (c : Coord) : Field :=
  { f with
    data := Function.update f.data c { f.data c with state := State.Uncovered },
    stats :=
      if (f.data c).value = CellValue.Mine then
        { f.stats with covered_mine := f.stats.covered_mine - 1 }
      else
        { f.stats with uncovered_blank := f.stats.uncovered_blank + 1 } }

/-- The in-bounds coordinates of a `rows × columns` grid as a finite set. -/
def validFinset (rows columns : Nat) : Finset Coord :=
  (Finset.range rows ×ˢ Finset.range columns).image fun p => ((p.1 : Int), (p.2 : Int))

/-- Termination measure for the reveal loop: covered cells among the grid
cells and the queued coordinates. -/
def coveredMeasure (f : Field) (queue : List Coord) : Nat :=
  ((validFinset f.rows f.columns ∪ queue.toFinset).filter
    fun c => (f.data c).state = State.Covered).card

lemma neighborhood_subset_valid (coord : Coord) (rows columns : Nat) :
    ∀ x ∈ neighborhood_of coord rows columns, x ∈ validFinset rows columns := by
  intro x hx
  have hb : containsB rows columns x = true := (List.mem_filter.mp hx).2
  simp only [containsB, Bool.and_eq_true, decide_eq_true_eq] at hb
  obtain ⟨⟨h1, h2⟩, h3, h4⟩ := hb
  simp only [validFinset, Finset.mem_image, Finset.mem_product, Finset.mem_range]
  obtain ⟨a, b⟩ := x
  refine ⟨(a.toNat, b.toNat), ⟨?_, ?_⟩, ?_⟩
  · simp only [] at h2 ⊢
    omega
  · simp only [] at h4 ⊢
    omega
  · simp only [Prod.mk.injEq]
    constructor <;> omega

lemma revealStep_rows (f : Field) (c : Coord) : (revealStep f c).rows = f.rows := rfl

lemma revealStep_columns (f : Field) (c : Coord) : (revealStep f c).columns = f.columns := rfl

lemma revealStep_data_ne (f : Field) (c x : Coord) (h : x ≠ c) :
    (revealStep f c).data x = f.data x := by
  simp [revealStep, Function.update_noteq h]

lemma revealStep_data_self (f : Field) (c : Coord) :
    (revealStep f c).data c = { f.data c with state := State.Uncovered } := by
  simp [revealStep]

lemma coveredMeasure_decrease (f : Field) (c : Coord) (q ext : List Coord)
    (hc : (f.data c).state = State.Covered)
    (hext : ∀ x ∈ ext, x ∈ validFinset f.rows f.columns) :
    coveredMeasure (revealStep f c) (q ++ ext) < coveredMeasure f (c :: q) := by
  classical
  unfold coveredMeasure
  rw [revealStep_rows, revealStep_columns]
  set S := validFinset f.rows f.columns ∪ (c :: q).toFinset with hS
  set S' := validFinset f.rows f.columns ∪ (q ++ ext).toFinset with hS'
  have hsub : S' ⊆ S := by
    intro x hx
    rcases Finset.mem_union.mp hx with h | h
    · exact Finset.mem_union_left _ h
    · rcases List.mem_toFinset.mp h |> List.mem_append.mp with h | h
      · exact Finset.mem_union_right _ (List.mem_toFinset.mpr (List.mem_cons_of_mem _ h))
      · exact Finset.mem_union_left _ (hext _ h)
  have hcS : c ∈ S := Finset.mem_union_right _ (List.mem_toFinset.mpr (List.mem_cons_self _ _))
  have hcmem : c ∈ S.filter fun x => (f.data x).state = State.Covered :=
    Finset.mem_filter.mpr ⟨hcS, hc⟩
  have hsub2 : (S'.filter fun x => ((revealStep f c).data x).state = State.Covered) ⊆
      (S.filter fun x => (f.data x).state = State.Covered).erase c := by
    intro x hx
    obtain ⟨hxS', hxcov⟩ := Finset.mem_filter.mp hx
    have hxc : x ≠ c := by
      intro h
      rw [h, revealStep_data_self] at hxcov
      simp at hxcov
    rw [revealStep_data_ne f c x hxc] at hxcov
    exact Finset.mem_erase.mpr ⟨hxc, Finset.mem_filter.mpr ⟨hsub hxS', hxcov⟩⟩
  calc (S'.filter fun x => ((revealStep f c).data x).state = State.Covered).card
      ≤ ((S.filter fun x => (f.data x).state = State.Covered).erase c).card :=
        Finset.card_le_card hsub2
    _ < (S.filter fun x => (f.data x).state = State.Covered).card :=
        Finset.card_erase_lt_of_mem hcmem

lemma coveredMeasure_skip (f : Field) (c : Coord) (q : List Coord) :
    coveredMeasure f q ≤ coveredMeasure f (c :: q) := by
  classical
  unfold coveredMeasure
  apply Finset.card_le_card
  apply Finset.filter_subset_filter
  intro x hx
  rcases Finset.mem_union.mp hx with h | h
  · exact Finset.mem_union_left _ h
  · exact Finset.mem_union_right _
      (List.mem_toFinset.mpr (List.mem_cons_of_mem _ (List.mem_toFinset.mp h)))

/-- `fn reveal` of `field.rs`: breadth-first flood fill.  The first component
is the resulting field; the second is ghost instrumentation recording, in
order, the cells the loop dequeued while they were still covered (each such
cell is uncovered at that moment). -/
def revealAux (f : Field) (queue : List Coord) : Field × List Coord :=
  match queue with
  | [] => (f, [])
  | c :: q =>
    if h : (f.data c).state = State.Covered then
      let f1 := revealStep f c
      if (f1.data c).value = CellValue.Number 0 then
        let r := revealAux f1 (q ++ (neighborhood_of c f1.rows f1.columns).filter
          fun i => decide ((f1.data i).state = State.Covered))
        (r.1, c :: r.2)
      else
        let r := revealAux f1 q
        (r.1, c :: r.2)
    else
      revealAux f q
termination_by (coveredMeasure f queue, queue.length)
decreasing_by
  · exact Prod.Lex.left _ _ (coveredMeasure_decrease f c q _ h
      (fun x hx => neighborhood_subset_valid c _ _ x (List.mem_filter.mp hx).1))
  · exact Prod.Lex.left _ _ (by
      have := coveredMeasure_decrease f c q [] h (by intro x hx; cases hx)
      simpa using this)
  · rcases lt_or_eq_of_le (coveredMeasure_skip f c q) with hlt | heq
    · exact Prod.Lex.left _ _ hlt
    · rw [heq]
      exact Prod.Lex.right _ (Nat.lt_succ_self _)

/-- `fn reveal` of `field.rs`, field result only. -/
def reveal (f : Field) (coords : List Coord) : Field := (revealAux f coords).1

/-- `fn reveal_around` of `field.rs`. -/
def reveal_around (f : Field) (coord : Coord) : Field :=
  reveal f (neighborhood_of coord f.rows f.columns)

/-- `pub fn uncover` of `field.rs`: a mine explodes (`exploded += 1`, state
`Exploded`), any other cell seeds the flood fill. -/
def uncover (f : Field) (coord : Coord) : Field :=
  if (f.get coord).value = CellValue.Mine then
    { f with
      stats := { f.stats with exploded := f.stats.exploded + 1 },
      data := Function.update f.data coord { f.data coord with state := State.Exploded } }
  else
    reveal f [coord]

/-- The `covered` counter of `pub fn uncover_around`: neighbors whose state is
not `Uncovered` (the loop's `else` branch). -/
def coveredCnt (f : Field) (coord : Coord) : Nat :=
  (neighborhood_of coord f.rows f.columns).countP
    fun c => decide (¬ (f.data c).state = State.Uncovered)

/-- The `uncovered_mines` counter of `pub fn uncover_around`: neighbors that
are `Uncovered` and hold a mine. -/
def uncoveredMinesCnt (f : Field) (coord : Coord) : Nat :=
  (neighborhood_of coord f.rows f.columns).countP
    fun c => decide ((f.data c).state = State.Uncovered ∧ (f.data c).value = CellValue.Mine)

/-- `pub fn uncover_around` of `field.rs` (the chord action). -/
def uncover_around (f : Field) (coord : Coord) : Bool × Field :=
  match (f.get coord).value with
  | CellValue.Mine => (false, f)
  | CellValue.Number value =>
    let covered := coveredCnt f coord
    let uncovered_mines := uncoveredMinesCnt f coord
    if covered = 0 then (false, f)
    else if uncovered_mines = value ∨ covered + uncovered_mines = value then
      (true, reveal_around f coord)
    else (false, f)

/-- `fn to_index` of `field.rs`: the flat index of a coordinate. -/
def toIndex (columns : Nat) (c : Coord) : Nat := c.1.toNat * columns + c.2.toNat

/-- The coordinate backing flat index `i` of the cell `Vec` (see the file
comment). -/
def ofIndex (columns : Nat) (i : Nat) : Coord := (((i / columns : Nat) : Int), ((i % columns : Nat) : Int))

/-- The index adjustment of `Field::initialize`: a sampled index at or above
the avoided index is shifted up by one. -/
def adjustIndex (avoidIdx i : Nat) : Nat := if avoidIdx ≤ i then i + 1 else i

/-- The first loop of `Field::initialize`: mark the adjusted sampled indices
as mines. -/
def markMines (f : Field) (avoidIdx : Nat) (sample : List Nat) : Field :=
  sample.foldl
    (fun g i =>
      let c := ofIndex g.columns (adjustIndex avoidIdx i)
      g.setCell c { g.get c with value := CellValue.Mine })
    f

/-- The in-bounds coordinates in row-major order (the iteration order of the
second loop of `Field::initialize`). -/
def validCoordList (rows columns : Nat) : List Coord :=
  ((List.range rows).map fun (i : Nat) =>
    (List.range columns).map fun (j : Nat) => ((i : Int), (j : Int))).flatten

/-- The neighbor-mine count of the second loop of `Field::initialize`. -/
def mineNeighborCount (f : Field) (coord : Coord) : Nat :=
  (neighborhood_of coord f.rows f.columns).countP
    fun c => decide ((f.data c).value = CellValue.Mine)

/-- One iteration of the second loop of `Field::initialize`: a non-mine cell
receives the count of mines in its neighborhood of the current grid. -/
def assignStep (g : Field) (c : Coord) : Field :=
  if (g.get c).value ≠ CellValue.Mine then
    g.setCell c { g.get c with value := CellValue.Number (mineNeighborCount g c) }
  else g

/-- The second loop of `Field::initialize`: every non-mine cell receives the
count of mines in its neighborhood, in row-major order over the current
(partially rewritten) grid. -/
def assignNumbers (f : Field) : Field :=
  (validCoordList f.rows f.columns).foldl assignStep f

/-- `pub fn initialize` of `field.rs` (renamed: the screen refuses the original
name), with the random sample passed explicitly: a list of flat indices drawn
without replacement from `0 .. columns*rows - 1`. -/
def initField (f : Field) (avoid : Coord) (sample : List Nat) : Field :=
  let f1 := markMines f (toIndex f.columns avoid) sample
  { assignNumbers f1 with initialized := true }

/-- `pub fn new` of `field.rs`: clamp `rows ≥ 2`, `columns ≥ 2`,
`mines ∈ [1, rows*columns - 1]`; all cells default; `covered_mine` starts at
`mines`. -/
def Field.new (rows columns mines : Nat) : Field :=
  let rows2 := max rows 2
  let columns2 := max columns 2
  let mines2 := min (max mines 1) (rows2 * columns2 - 1)
  { initialized := false
    rows := rows2
    columns := columns2
    mines := mines2
    stats := ⟨0, mines2, 0⟩
    data := fun _ => Cell.default }

lemma revealAux_nil (f : Field) : revealAux f [] = (f, []) := by
  unfold revealAux
  rfl

lemma revealAux_cons_zero (f : Field) (c : Coord) (q : List Coord)
    (hc : (f.data c).state = State.Covered)
    (hz : (f.data c).value = CellValue.Number 0) :
    revealAux f (c :: q) =
      ((revealAux (revealStep f c)
          (q ++ (neighborhood_of c f.rows f.columns).filter
            fun i => decide (((revealStep f c).data i).state = State.Covered))).1,
        c :: (revealAux (revealStep f c)
          (q ++ (neighborhood_of c f.rows f.columns).filter
            fun i => decide (((revealStep f c).data i).state = State.Covered))).2) := by
  conv_lhs => unfold revealAux
  rw [dif_pos hc]
  simp [revealStep_data_self, revealStep_rows, revealStep_columns, hz]

lemma revealAux_cons_nonzero (f : Field) (c : Coord) (q : List Coord)
    (hc : (f.data c).state = State.Covered)
    (hz : (f.data c).value ≠ CellValue.Number 0) :
    revealAux f (c :: q) =
      ((revealAux (revealStep f c) q).1, c :: (revealAux (revealStep f c) q).2) := by
  conv_lhs => unfold revealAux
  rw [dif_pos hc]
  simp [revealStep_data_self, hz]

lemma revealAux_cons_skip (f : Field) (c : Coord) (q : List Coord)
    (hc : ¬ (f.data c).state = State.Covered) :
    revealAux f (c :: q) = revealAux f q := by
  conv_lhs => unfold revealAux
  rw [dif_neg hc]

lemma revealAux_rows (f : Field) (q : List Coord) : (revealAux f q).1.rows = f.rows := by
  induction f, q using revealAux.induct with
  | case1 f => rw [revealAux_nil]
  | case2 f c q hc f1 hz ih =>
    rw [revealAux_cons_zero f c q hc (by rwa [revealStep_data_self] at hz)]
    exact ih
  | case3 f c q hc f1 hz ih =>
    rw [revealAux_cons_nonzero f c q hc (by rwa [revealStep_data_self] at hz)]
    exact ih
  | case4 f c q hc ih =>
    rw [revealAux_cons_skip f c q hc]
    exact ih

lemma revealAux_columns (f : Field) (q : List Coord) :
    (revealAux f q).1.columns = f.columns := by
  induction f, q using revealAux.induct with
  | case1 f => rw [revealAux_nil]
  | case2 f c q hc f1 hz ih =>
    rw [revealAux_cons_zero f c q hc (by rwa [revealStep_data_self] at hz)]
    exact ih
  | case3 f c q hc f1 hz ih =>
    rw [revealAux_cons_nonzero f c q hc (by rwa [revealStep_data_self] at hz)]
    exact ih
  | case4 f c q hc ih =>
    rw [revealAux_cons_skip f c q hc]
    exact ih

/-- The reveal loop never rewrites a value: only states and stats change. -/
lemma revealAux_value (f : Field) (q : List Coord) (x : Coord) :
    (((revealAux f q).1).data x).value = (f.data x).value := by
  induction f, q using revealAux.induct with
  | case1 f => rw [revealAux_nil]
  | case2 f c q hc f1 hz ih =>
    rw [revealAux_cons_zero f c q hc (by rwa [revealStep_data_self] at hz)]
    refine ih.trans ?_
    by_cases hxc : x = c
    · subst hxc
      rw [revealStep_data_self]
    · rw [revealStep_data_ne f c x hxc]
  | case3 f c q hc f1 hz ih =>
    rw [revealAux_cons_nonzero f c q hc (by rwa [revealStep_data_self] at hz)]
    refine ih.trans ?_
    by_cases hxc : x = c
    · subst hxc
      rw [revealStep_data_self]
    · rw [revealStep_data_ne f c x hxc]
  | case4 f c q hc ih =>
    rw [revealAux_cons_skip f c q hc]
    exact ih

/-- The reveal loop leaves every cell that is not covered untouched. -/
lemma revealAux_not_covered (f : Field) (q : List Coord) (x : Coord)
    (hx : ¬ (f.data x).state = State.Covered) :
    ((revealAux f q).1).data x = f.data x := by
  induction f, q using revealAux.induct with
  | case1 f => rw [revealAux_nil]
  | case2 f c q hc f1 hz ih =>
    rw [revealAux_cons_zero f c q hc (by rwa [revealStep_data_self] at hz)]
    have hxc : x ≠ c := fun h => hx (h ▸ hc)
    have hdata : (revealStep f c).data x = f.data x := revealStep_data_ne f c x hxc
    exact (ih (by rw [hdata]; exact hx)).trans hdata
  | case3 f c q hc f1 hz ih =>
    rw [revealAux_cons_nonzero f c q hc (by rwa [revealStep_data_self] at hz)]
    have hxc : x ≠ c := fun h => hx (h ▸ hc)
    have hdata : (revealStep f c).data x = f.data x := revealStep_data_ne f c x hxc
    exact (ih (by rw [hdata]; exact hx)).trans hdata
  | case4 f c q hc ih =>
    rw [revealAux_cons_skip f c q hc]
    exact ih hx

/-- The ghost log is duplicate-free (each cell is processed at most once) and
holds only cells that were covered when the loop started. -/
lemma revealAux_log (f : Field) (q : List Coord) :
    ((revealAux f q).2).Nodup ∧ ∀ x ∈ (revealAux f q).2, (f.data x).state = State.Covered := by
  induction f, q using revealAux.induct with
  | case1 f =>
    rw [revealAux_nil]
    exact ⟨List.nodup_nil, by intro x hx; cases hx⟩
  | case2 f c q hc f1 hz ih =>
    rw [revealAux_cons_zero f c q hc (by rwa [revealStep_data_self] at hz)]
    obtain ⟨ihn, ihc⟩ := ih
    have hcnot : ∀ x ∈ (revealAux (revealStep f c)
        (q ++ (neighborhood_of c f.rows f.columns).filter
          fun i => decide (((revealStep f c).data i).state = State.Covered))).2, x ≠ c := by
      intro x hx h
      subst h
      have := ihc x hx
      rw [revealStep_data_self] at this
      simp at this
    refine ⟨List.nodup_cons.mpr ⟨fun h => hcnot c h rfl, ihn⟩, ?_⟩
    intro x hx
    rcases List.mem_cons.mp hx with h | h
    · exact h ▸ hc
    · have := ihc x h
      rwa [revealStep_data_ne f c x (hcnot x h)] at this
  | case3 f c q hc f1 hz ih =>
    rw [revealAux_cons_nonzero f c q hc (by rwa [revealStep_data_self] at hz)]
    obtain ⟨ihn, ihc⟩ := ih
    have hcnot : ∀ x ∈ (revealAux (revealStep f c) q).2, x ≠ c := by
      intro x hx h
      subst h
      have := ihc x hx
      rw [revealStep_data_self] at this
      simp at this
    refine ⟨List.nodup_cons.mpr ⟨fun h => hcnot c h rfl, ihn⟩, ?_⟩
    intro x hx
    rcases List.mem_cons.mp hx with h | h
    · exact h ▸ hc
    · have := ihc x h
      rwa [revealStep_data_ne f c x (hcnot x h)] at this
  | case4 f c q hc ih =>
    rw [revealAux_cons_skip f c q hc]
    exact ih

/-- One flood-fill step of `Field::reveal` at the relation level: from a
covered zero-valued cell to a covered in-bounds neighbor. -/
def step (f : Field) (a b : Coord) : Prop :=
  (f.data a).state = State.Covered ∧ (f.data a).value = CellValue.Number 0 ∧
    b ∈ neighborhood_of a f.rows f.columns ∧ (f.data b).state = State.Covered

/-- The cells the flood fill starting from `q` reveals: covered cells
reachable from a covered queue entry through covered zero-valued cells. -/
def Reach (f : Field) (q : List Coord) (x : Coord) : Prop :=
  ∃ y ∈ q, (f.data y).state = State.Covered ∧ Relation.ReflTransGen (step f) y x

lemma step_promote (f : Field) (c a b : Coord) (ha : a ≠ c) (hb : b ≠ c)
    (h : step f a b) : step (revealStep f c) a b := by
  obtain ⟨h1, h2, h3, h4⟩ := h
  exact ⟨by rwa [revealStep_data_ne f c a ha], by rwa [revealStep_data_ne f c a ha],
    h3, by rwa [revealStep_data_ne f c b hb]⟩

lemma step_demote (f : Field) (c a b : Coord) (h : step (revealStep f c) a b) :
    step f a b := by
  obtain ⟨h1, h2, h3, h4⟩ := h
  have ha : a ≠ c := by
    intro hac
    subst hac
    rw [revealStep_data_self] at h1
    simp at h1
  have hb : b ≠ c := by
    intro hbc
    subst hbc
    rw [revealStep_data_self] at h4
    simp at h4
  rw [revealStep_data_ne f c a ha] at h1 h2
  rw [revealStep_data_ne f c b hb] at h4
  exact ⟨h1, h2, h3, h4⟩

lemma rtg_from_not_covered (g : Field) (c x : Coord)
    (hc : ¬ (g.data c).state = State.Covered)
    (h : Relation.ReflTransGen (step g) c x) : x = c := by
  rcases Relation.ReflTransGen.cases_head h with h | ⟨w, hw, _⟩
  · exact h.symm
  · exact absurd hw.1 hc

lemma rtg_to_not_covered (g : Field) (y x : Coord)
    (hx : ¬ (g.data x).state = State.Covered)
    (h : Relation.ReflTransGen (step g) y x) : x = y := by
  induction h with
  | refl => rfl
  | tail hab hbx ih => exact absurd hbx.2.2.2 hx

/-- Decomposition of a flood-fill path after cell `c` is uncovered: the path
survives, ends at `c`, or re-enters through a neighbor of `c`. -/
lemma rtg_decompose (f : Field) (c y x : Coord)
    (h : Relation.ReflTransGen (step f) y x) :
    Relation.ReflTransGen (step (revealStep f c)) y x ∨ x = c ∨
      ∃ w, step f c w ∧ w ≠ c ∧ Relation.ReflTransGen (step (revealStep f c)) w x := by
  have hcun : ¬ ((revealStep f c).data c).state = State.Covered := by
    rw [revealStep_data_self]
    simp
  induction h with
  | refl => exact Or.inl Relation.ReflTransGen.refl
  | @tail b x hyb hbx ih =>
    by_cases hxc : x = c
    · exact Or.inr (Or.inl hxc)
    rcases ih with h1 | h2 | ⟨w, hw1, hw2, hw3⟩
    · by_cases hbc : b = c
      · subst hbc
        have hyb' : b = y := rtg_to_not_covered _ y b hcun h1
        subst hyb'
        exact Or.inr (Or.inr ⟨x, hbx, hxc, Relation.ReflTransGen.refl⟩)
      · exact Or.inl (h1.tail (step_promote f c b x hbc hxc hbx))
    · subst h2
      exact Or.inr (Or.inr ⟨x, hbx, hxc, Relation.ReflTransGen.refl⟩)
    · by_cases hbc : b = c
      · subst hbc
        exact absurd (rtg_to_not_covered _ w b hcun hw3).symm hw2
      · exact Or.inr (Or.inr ⟨w, hw1, hw2, hw3.tail (step_promote f c b x hbc hxc hbx)⟩)

lemma revealStep_not_covered_self (f : Field) (c : Coord) :
    ¬ ((revealStep f c).data c).state = State.Covered := by
  rw [revealStep_data_self]
  simp

lemma covered_revealStep_ne (f : Field) (c y : Coord)
    (h : ((revealStep f c).data y).state = State.Covered) :
    y ≠ c ∧ (f.data y).state = State.Covered := by
  have hyc : y ≠ c := fun hy => revealStep_not_covered_self f c (hy ▸ h)
  exact ⟨hyc, by rwa [revealStep_data_ne f c y hyc] at h⟩

lemma reach_cons_zero (f : Field) (c : Coord) (q : List Coord)
    (hc : (f.data c).state = State.Covered)
    (hz : (f.data c).value = CellValue.Number 0) (x : Coord) :
    Reach f (c :: q) x ↔
      (x = c ∨ Reach (revealStep f c)
        (q ++ (neighborhood_of c f.rows f.columns).filter
          fun i => decide (((revealStep f c).data i).state = State.Covered)) x) := by
  constructor
  · rintro ⟨y, hy, hycov, hyx⟩
    rcases rtg_decompose f c y x hyx with h1 | h2 | ⟨w, hw1, hw2, hw3⟩
    · by_cases hyc : y = c
      · subst hyc
        exact Or.inl (rtg_from_not_covered _ y x (revealStep_not_covered_self f y) h1)
      · refine Or.inr ⟨y, List.mem_append_left _ ?_, ?_, h1⟩
        · rcases List.mem_cons.mp hy with h | h
          · exact absurd h hyc
          · exact h
        · rwa [revealStep_data_ne f c y hyc]
    · exact Or.inl h2
    · refine Or.inr ⟨w, List.mem_append_right _ ?_, ?_, hw3⟩
      · refine List.mem_filter.mpr ⟨hw1.2.2.1, ?_⟩
        rw [revealStep_data_ne f c w hw2]
        simpa using hw1.2.2.2
      · rw [revealStep_data_ne f c w hw2]
        exact hw1.2.2.2
  · rintro (rfl | ⟨y, hy, hycov, hyx⟩)
    · exact ⟨x, List.mem_cons_self x q, hc, Relation.ReflTransGen.refl⟩
    · obtain ⟨hyc, hycov'⟩ := covered_revealStep_ne f c y hycov
      have hyx' : Relation.ReflTransGen (step f) y x := hyx.mono (step_demote f c)
      rcases List.mem_append.mp hy with h | h
      · exact ⟨y, List.mem_cons_of_mem _ h, hycov', hyx'⟩
      · have hynb : y ∈ neighborhood_of c f.rows f.columns := (List.mem_filter.mp h).1
        exact ⟨c, List.mem_cons_self c q, hc,
          Relation.ReflTransGen.head ⟨hc, hz, hynb, hycov'⟩ hyx'⟩

lemma reach_cons_nonzero (f : Field) (c : Coord) (q : List Coord)
    (hc : (f.data c).state = State.Covered)
    (hz : ¬ (f.data c).value = CellValue.Number 0) (x : Coord) :
    Reach f (c :: q) x ↔ (x = c ∨ Reach (revealStep f c) q x) := by
  constructor
  · rintro ⟨y, hy, hycov, hyx⟩
    rcases rtg_decompose f c y x hyx with h1 | h2 | ⟨w, hw1, hw2, hw3⟩
    · by_cases hyc : y = c
      · subst hyc
        exact Or.inl (rtg_from_not_covered _ y x (revealStep_not_covered_self f y) h1)
      · refine Or.inr ⟨y, ?_, ?_, h1⟩
        · rcases List.mem_cons.mp hy with h | h
          · exact absurd h hyc
          · exact h
        · rwa [revealStep_data_ne f c y hyc]
    · exact Or.inl h2
    · exact absurd hw1.2.1 hz
  · rintro (rfl | ⟨y, hy, hycov, hyx⟩)
    · exact ⟨x, List.mem_cons_self x q, hc, Relation.ReflTransGen.refl⟩
    · obtain ⟨hyc, hycov'⟩ := covered_revealStep_ne f c y hycov
      exact ⟨y, List.mem_cons_of_mem _ hy, hycov', hyx.mono (step_demote f c)⟩

lemma reach_cons_skip (f : Field) (c : Coord) (q : List Coord)
    (hc : ¬ (f.data c).state = State.Covered) (x : Coord) :
    Reach f (c :: q) x ↔ Reach f q x := by
  constructor
  · rintro ⟨y, hy, hycov, hyx⟩
    rcases List.mem_cons.mp hy with h | h
    · exact absurd (h ▸ hycov) hc
    · exact ⟨y, h, hycov, hyx⟩
  · rintro ⟨y, hy, hycov, hyx⟩
    exact ⟨y, List.mem_cons_of_mem _ hy, hycov, hyx⟩

/-- The flood-fill characterization: `Field::reveal` uncovers exactly the
cells in `Reach` of the initial queue and leaves every other cell untouched. -/
lemma revealAux_reach (f : Field) (q : List Coord) :
    (∀ x, Reach f q x → (((revealAux f q).1).data x).state = State.Uncovered) ∧
    (∀ x, ¬ Reach f q x → ((revealAux f q).1).data x = f.data x) := by
  induction f, q using revealAux.induct with
  | case1 f =>
    rw [revealAux_nil]
    exact ⟨fun x hx => absurd hx.choose_spec.1 (by simp), fun x _ => rfl⟩
  | case2 f c q hc f1 hz ih =>
    have hz' : (f.data c).value = CellValue.Number 0 := by rwa [revealStep_data_self] at hz
    rw [revealAux_cons_zero f c q hc hz']
    obtain ⟨ih1, ih2⟩ := ih
    constructor
    · intro x hx
      rcases (reach_cons_zero f c q hc hz' x).mp hx with rfl | hr
      · have : ((revealAux (revealStep f x)
            (q ++ (neighborhood_of x f.rows f.columns).filter
              fun i => decide (((revealStep f x).data i).state = State.Covered))).1).data x =
            (revealStep f x).data x :=
          revealAux_not_covered _ _ x (revealStep_not_covered_self f x)
        rw [this, revealStep_data_self]
      · exact ih1 x hr
    · intro x hx
      have hx' := (reach_cons_zero f c q hc hz' x).not.mp hx
      push_neg at hx'
      obtain ⟨hxc, hr⟩ := hx'
      exact (ih2 x hr).trans (revealStep_data_ne f c x hxc)
  | case3 f c q hc f1 hz ih =>
    have hz' : ¬ (f.data c).value = CellValue.Number 0 := by rwa [revealStep_data_self] at hz
    rw [revealAux_cons_nonzero f c q hc hz']
    obtain ⟨ih1, ih2⟩ := ih
    constructor
    · intro x hx
      rcases (reach_cons_nonzero f c q hc hz' x).mp hx with rfl | hr
      · have : ((revealAux (revealStep f x) q).1).data x = (revealStep f x).data x :=
          revealAux_not_covered _ _ x (revealStep_not_covered_self f x)
        rw [this, revealStep_data_self]
      · exact ih1 x hr
    · intro x hx
      have hx' := (reach_cons_nonzero f c q hc hz' x).not.mp hx
      push_neg at hx'
      obtain ⟨hxc, hr⟩ := hx'
      exact (ih2 x hr).trans (revealStep_data_ne f c x hxc)
  | case4 f c q hc ih =>
    rw [revealAux_cons_skip f c q hc]
    obtain ⟨ih1, ih2⟩ := ih
    exact ⟨fun x hx => ih1 x ((reach_cons_skip f c q hc x).mp hx),
      fun x hx => ih2 x (fun hr => hx ((reach_cons_skip f c q hc x).mpr hr))⟩

end Mine

namespace Mine

/-- A flood-fill step that stays on zero-valued cells. -/
def zstep (f : Field) (a b : Coord) : Prop :=
  step f a b ∧ (f.data b).value = CellValue.Number 0

/-- The maximal connected region of covered zero-valued cells containing `c`
(8-neighborhood connectivity), as the closure of `zstep`. -/
def Zone (f : Field) (c x : Coord) : Prop := Relation.ReflTransGen (zstep f) c x

/-- The ring of covered non-zero cells bordering the zone of `c`. -/
def Ring (f : Field) (c x : Coord) : Prop :=
  (f.data x).state = State.Covered ∧ ¬ (f.data x).value = CellValue.Number 0 ∧
    ∃ z, Zone f c z ∧ x ∈ neighborhood_of z f.rows f.columns

lemma zone_covered_zero (f : Field) (c x : Coord)
    (hcov : (f.data c).state = State.Covered)
    (hz : (f.data c).value = CellValue.Number 0) (h : Zone f c x) :
    (f.data x).state = State.Covered ∧ (f.data x).value = CellValue.Number 0 := by
  induction h with
  | refl => exact ⟨hcov, hz⟩
  | tail hab hbx ih => exact ⟨hbx.1.2.2.2, hbx.2⟩

lemma rtg_iff_zone_ring (f : Field) (c : Coord)
    (hcov : (f.data c).state = State.Covered)
    (hz : (f.data c).value = CellValue.Number 0) (x : Coord) :
    Relation.ReflTransGen (step f) c x ↔ (Zone f c x ∨ Ring f c x) := by
  constructor
  · intro h
    induction h with
    | refl => exact Or.inl Relation.ReflTransGen.refl
    | @tail b x hyb hbx ih =>
      rcases ih with hzone | hring
      · by_cases hzx : (f.data x).value = CellValue.Number 0
        · exact Or.inl (hzone.tail ⟨hbx, hzx⟩)
        · exact Or.inr ⟨hbx.2.2.2, hzx, b, hzone, hbx.2.2.1⟩
      · exact absurd hbx.2.1 hring.2.1
  · rintro (hzone | ⟨hcx, hnz, z, hz', hnb⟩)
    · exact hzone.mono fun a b hab => hab.1
    · have hzc := zone_covered_zero f c z hcov hz hz'
      exact Relation.ReflTransGen.tail (hz'.mono fun a b hab => hab.1)
        ⟨hzc.1, hzc.2, hnb, hcx⟩

/-- C5: uncovering a covered `Number(0)` cell of an initialized field uncovers
exactly the maximal connected region of covered zero-valued cells containing
it together with the one ring of covered non-zero cells bordering that region,
changes no other cell, and the (total, hence terminating) BFS processes each
cell at most once. -/
theorem C5_flood_fill_closure (f : Field) (c : Coord)
    (hinit : f.initialized = true)
    (hcov : (f.get c).state = State.Covered)
    (hzero : (f.get c).value = CellValue.Number 0) :
    (∀ x, (Zone f c x ∨ Ring f c x) → ((uncover f c).get x).state = State.Uncovered) ∧
    (∀ x, ¬ (Zone f c x ∨ Ring f c x) → (uncover f c).get x = f.get x) ∧
    ((revealAux f [c]).2).Nodup := by
  have hmine : ¬ (f.get c).value = CellValue.Mine := by rw [hzero]; simp
  have hu : uncover f c = (revealAux f [c]).1 := by
    unfold uncover
    rw [if_neg hmine]
    rfl
  have hiff : ∀ x, Reach f [c] x ↔ (Zone f c x ∨ Ring f c x) := by
    intro x
    constructor
    · rintro ⟨y, hy, hycov, hyx⟩
      have hyc : y = c := List.mem_singleton.mp hy
      subst hyc
      exact (rtg_iff_zone_ring f y hcov hzero x).mp hyx
    · intro h
      exact ⟨c, List.mem_singleton_self c, hcov,
        (rtg_iff_zone_ring f c hcov hzero x).mpr h⟩
  obtain ⟨h1, h2⟩ := revealAux_reach f [c]
  refine ⟨?_, ?_, (revealAux_log f [c]).1⟩
  · intro x hx
    rw [hu]
    exact h1 x ((hiff x).mpr hx)
  · intro x hx
    rw [hu]
    exact h2 x fun hr => hx ((hiff x).mp hr)

/-- A concrete all-zero 2 by 2 field used by the C5 witness. -/
def fieldC5 : Field :=
  { initialized := true
    rows := 2
    columns := 2
    mines := 0
    stats := ⟨0, 0, 0⟩
    data := fun _ => Cell.default }

theorem C5_flood_fill_closure_witness :
    ((uncover fieldC5 (0, 0)).get (0, 0)).state = State.Uncovered :=
  (C5_flood_fill_closure fieldC5 (0, 0) rfl rfl rfl).1 (0, 0)
    (Or.inl Relation.ReflTransGen.refl)

/-- C4: the chord action `uncover_around` on an initialized field: a mine cell
returns false with no change; on a numbered cell it counts the not-uncovered
neighbors (`covered`) and the uncovered mine neighbors (`uncovered_mines`);
it returns false with no change when `covered = 0` or when neither
`uncovered_mines = value` nor `covered + uncovered_mines = value`; otherwise
it returns true and flood-reveals, by the same BFS rule as `uncover`, every
covered neighbor. -/
theorem C4_uncover_around_cases (f : Field) (c : Coord)
    (hinit : f.initialized = true) :
    ((f.get c).value = CellValue.Mine → uncover_around f c = (false, f)) ∧
    (∀ v, (f.get c).value = CellValue.Number v →
      (coveredCnt f c = 0 → uncover_around f c = (false, f)) ∧
      (coveredCnt f c ≠ 0 →
        (uncoveredMinesCnt f c = v ∨ coveredCnt f c + uncoveredMinesCnt f c = v) →
        (uncover_around f c).1 = true ∧
        (uncover_around f c).2 = reveal f (neighborhood_of c f.rows f.columns) ∧
        ∀ x ∈ neighborhood_of c f.rows f.columns,
          (f.get x).state = State.Covered →
            ((uncover_around f c).2.get x).state = State.Uncovered) ∧
      (coveredCnt f c ≠ 0 →
        ¬ (uncoveredMinesCnt f c = v ∨ coveredCnt f c + uncoveredMinesCnt f c = v) →
        uncover_around f c = (false, f))) := by
  constructor
  · intro hv
    simp only [uncover_around, hv]
  · intro v hv
    refine ⟨?_, ?_, ?_⟩
    · intro h0
      simp only [uncover_around, hv, if_pos h0]
    · intro h0 hcond
      have heq : uncover_around f c = (true, reveal_around f c) := by
        simp only [uncover_around, hv]
        rw [if_neg h0, if_pos hcond]
      refine ⟨by rw [heq], by rw [heq]; rfl, ?_⟩
      intro x hxm hxc
      rw [heq]
      exact (revealAux_reach f (neighborhood_of c f.rows f.columns)).1 x
        ⟨x, hxm, hxc, Relation.ReflTransGen.refl⟩
    · intro h0 hcond
      simp only [uncover_around, hv]
      rw [if_neg h0, if_neg hcond]

/-- A concrete field with a covered mine at the origin, for the C4 witness. -/
def fieldC4 : Field :=
  { initialized := true
    rows := 2
    columns := 2
    mines := 1
    stats := ⟨0, 1, 0⟩
    data := fun c =>
      if c = ((0 : Int), (0 : Int)) then ⟨CellValue.Mine, State.Covered⟩
      else ⟨CellValue.Number 1, State.Covered⟩ }

theorem C4_uncover_around_cases_witness :
    uncover_around fieldC4 (0, 0) = (false, fieldC4) :=
  (C4_uncover_around_cases fieldC4 (0, 0) rfl).1 (by decide)

end Mine

namespace Mine

lemma uncover_value (f : Field) (c x : Coord) :
    ((uncover f c).data x).value = (f.data x).value := by
  unfold uncover
  split_ifs with h
  · by_cases hxc : x = c
    · subst hxc
      simp
    · simp [Function.update_noteq hxc]
  · exact revealAux_value f [c] x

lemma uncover_covered_back (f : Field) (c x : Coord)
    (h : ((uncover f c).data x).state = State.Covered) :
    (f.data x).state = State.Covered := by
  unfold uncover at h
  split_ifs at h with hm
  · by_cases hxc : x = c
    · subst hxc
      simp at h
    · simpa [Function.update_noteq hxc] using h
  · by_cases hcov : (f.data x).state = State.Covered
    · exact hcov
    · unfold reveal at h
      rw [revealAux_not_covered f [c] x hcov] at h
      exact h

lemma uncover_around_value (f : Field) (c x : Coord) :
    (((uncover_around f c).2).data x).value = (f.data x).value := by
  unfold uncover_around
  rcases hv : (f.get c).value with _ | v
  · rfl
  · simp only []
    split_ifs with h0 hcond
    · rfl
    · exact revealAux_value f _ x
    · rfl

lemma uncover_around_covered_back (f : Field) (c x : Coord)
    (h : (((uncover_around f c).2).data x).state = State.Covered) :
    (f.data x).state = State.Covered := by
  unfold uncover_around at h
  rcases hv : (f.get c).value with _ | v
  · rwa [hv] at h
  · rw [hv] at h
    simp only [] at h
    split_ifs at h with h0 hcond
    · exact h
    · by_cases hcov : (f.data x).state = State.Covered
      · exact hcov
      · unfold reveal_around reveal at h
        rw [revealAux_not_covered f _ x hcov] at h
        exact h
    · exact h

lemma setCell_state_keep (f : Field) (c : Coord) (v : CellValue) (x : Coord) :
    ((f.setCell c { f.get c with value := v }).data x).state = (f.data x).state := by
  unfold Field.setCell Field.get
  by_cases hxc : x = c
  · subst hxc
    simp
  · simp [Function.update_noteq hxc]

lemma markMines_state (s : List Nat) (f : Field) (a : Nat) (x : Coord) :
    ((markMines f a s).data x).state = (f.data x).state := by
  induction s generalizing f with
  | nil => rfl
  | cons i t ih =>
    unfold markMines
    rw [List.foldl_cons]
    exact (ih _).trans (setCell_state_keep f _ CellValue.Mine x)

lemma assignNumbers_fold_state (L : List Coord) (f : Field) (x : Coord) :
    ((L.foldl assignStep f).data x).state = (f.data x).state := by
  induction L generalizing f with
  | nil => rfl
  | cons c t ih =>
    rw [List.foldl_cons]
    refine (ih _).trans ?_
    unfold assignStep
    split_ifs with h
    · exact setCell_state_keep f _ _ x
    · rfl

lemma initField_state (f : Field) (avoid : Coord) (sample : List Nat) (x : Coord) :
    ((initField f avoid sample).data x).state = (f.data x).state := by
  unfold initField assignNumbers
  exact (assignNumbers_fold_state _ _ x).trans (markMines_state sample f _ x)

/-- C10 (amended): `uncover` and `uncover_around` never change any cell value
and never turn a revealed (not covered) cell back into a covered one;
`initField` never changes any cell state.  (The original claim additionally
said revealed cells keep their value under `initField`; the counterexample
shows `initField` on a field that already has an uncovered cell may rewrite
that cell's value.) -/
theorem C10_monotone_amended :
    (∀ (f : Field) (c x : Coord),
      ((uncover f c).data x).value = (f.data x).value ∧
      (((uncover f c).data x).state = State.Covered → (f.data x).state = State.Covered)) ∧
    (∀ (f : Field) (c x : Coord),
      (((uncover_around f c).2).data x).value = (f.data x).value ∧
      ((((uncover_around f c).2).data x).state = State.Covered →
        (f.data x).state = State.Covered)) ∧
    (∀ (f : Field) (avoid : Coord) (sample : List Nat) (x : Coord),
      ((initField f avoid sample).data x).state = (f.data x).state) :=
  ⟨fun f c x => ⟨uncover_value f c x, uncover_covered_back f c x⟩,
   fun f c x => ⟨uncover_around_value f c x, uncover_around_covered_back f c x⟩,
   fun f avoid sample x => initField_state f avoid sample x⟩

/-- A field whose origin cell is already uncovered, for the C10
counterexample: re-running mine placement rewrites the value of an uncovered
cell. -/
def fieldC10 : Field :=
  { initialized := false
    rows := 2
    columns := 2
    mines := 1
    stats := ⟨1, 1, 0⟩
    data := fun c =>
      if c = ((0 : Int), (0 : Int)) then ⟨CellValue.Number 0, State.Uncovered⟩
      else Cell.default }

/-- C10 counterexample: `initField` on a field with an uncovered cell changes
that cell's value (from `Number 0` to `Mine`), so the claim that no operation
ever changes the value of an already revealed cell is false as stated. -/
theorem C10_monotone_counterexample :
    (fieldC10.data (0, 0)).state = State.Uncovered ∧
    (fieldC10.data (0, 0)).value = CellValue.Number 0 ∧
    ((initField fieldC10 (1, 1) [0]).data (0, 0)).value = CellValue.Mine := by
  refine ⟨by decide, by decide, ?_⟩
  decide

end Mine

namespace Mine

theorem C10_monotone_amended_witness : (fieldC4.data (1, 1)).state = State.Covered :=
  (C10_monotone_amended.1 fieldC4 (0, 0) (1, 1)).2 (by decide)

end Mine

namespace Mine

lemma setCell_rows (f : Field) (c : Coord) (cell : Cell) : (f.setCell c cell).rows = f.rows := rfl

lemma setCell_columns (f : Field) (c : Coord) (cell : Cell) :
    (f.setCell c cell).columns = f.columns := rfl

lemma setCell_data_self (f : Field) (c : Coord) (cell : Cell) :
    (f.setCell c cell).data c = cell := by
  simp [Field.setCell]

lemma setCell_data_ne (f : Field) (c : Coord) (cell : Cell) (x : Coord) (h : x ≠ c) :
    (f.setCell c cell).data x = f.data x := by
  simp [Field.setCell, Function.update_noteq h]

lemma adjustIndex_ne (a i : Nat) : adjustIndex a i ≠ a := by
  unfold adjustIndex
  split_ifs with h <;> omega

lemma adjustIndex_inj (a : Nat) : Function.Injective (adjustIndex a) := by
  intro i j h
  unfold adjustIndex at h
  split_ifs at h <;> omega

lemma ofIndex_inj (columns : Nat) (hc : 0 < columns) : Function.Injective (ofIndex columns) := by
  intro i j h
  unfold ofIndex at h
  rw [Prod.mk.injEq] at h
  obtain ⟨h1, h2⟩ := h
  rw [Int.ofNat_inj] at h1 h2
  have hi := Nat.div_add_mod i columns
  have hj := Nat.div_add_mod j columns
  rw [h1, h2] at hi
  omega

lemma ofIndex_toIndex (rows columns : Nat) (c : Coord)
    (h : containsB rows columns c = true) : ofIndex columns (toIndex columns c) = c := by
  simp only [containsB, Bool.and_eq_true, decide_eq_true_eq] at h
  obtain ⟨⟨h1, h2⟩, h3, h4⟩ := h
  obtain ⟨a, b⟩ := c
  simp only [] at h1 h2 h3 h4
  unfold ofIndex toIndex
  simp only [Prod.mk.injEq]
  have hcpos : 0 < columns := by omega
  have hb : b.toNat < columns := by omega
  have hdiv : (a.toNat * columns + b.toNat) / columns = a.toNat := by
    rw [Nat.add_comm, Nat.mul_comm, Nat.add_mul_div_left _ _ hcpos, Nat.div_eq_of_lt hb]
    omega
  have hmod : (a.toNat * columns + b.toNat) % columns = b.toNat := by
    rw [Nat.add_comm, Nat.mul_comm, Nat.add_mul_mod_self_left, Nat.mod_eq_of_lt hb]
  constructor
  · rw [hdiv]
    omega
  · rw [hmod]
    omega

lemma markMines_cons (f : Field) (a i : Nat) (t : List Nat) :
    markMines f a (i :: t) =
      markMines (f.setCell (ofIndex f.columns (adjustIndex a i))
        { f.get (ofIndex f.columns (adjustIndex a i)) with value := CellValue.Mine }) a t := rfl

lemma markMines_rows (s : List Nat) (f : Field) (a : Nat) : (markMines f a s).rows = f.rows := by
  induction s generalizing f with
  | nil => rfl
  | cons i t ih =>
    rw [markMines_cons]
    exact ih _

lemma markMines_columns (s : List Nat) (f : Field) (a : Nat) :
    (markMines f a s).columns = f.columns := by
  induction s generalizing f with
  | nil => rfl
  | cons i t ih =>
    rw [markMines_cons]
    exact ih _

lemma markMines_value_miss (s : List Nat) (f : Field) (a : Nat) (x : Coord)
    (h : ∀ i ∈ s, ofIndex f.columns (adjustIndex a i) ≠ x) :
    ((markMines f a s).data x).value = (f.data x).value := by
  induction s generalizing f with
  | nil => rfl
  | cons i t ih =>
    rw [markMines_cons]
    have hix : ofIndex f.columns (adjustIndex a i) ≠ x := h i (List.mem_cons_self i t)
    have ht : ∀ j ∈ t, ofIndex
        (f.setCell (ofIndex f.columns (adjustIndex a i))
          { f.get (ofIndex f.columns (adjustIndex a i)) with
            value := CellValue.Mine }).columns (adjustIndex a j) ≠ x := by
      intro j hj
      exact h j (List.mem_cons_of_mem i hj)
    refine (ih _ ht).trans ?_
    rw [setCell_data_ne _ _ _ x (fun hx => hix hx.symm)]

lemma markMines_value_hit (s : List Nat) (f : Field) (a : Nat) (x : Coord)
    (h : ∃ i ∈ s, ofIndex f.columns (adjustIndex a i) = x) :
    ((markMines f a s).data x).value = CellValue.Mine := by
  induction s generalizing f with
  | nil => obtain ⟨i, hi, _⟩ := h; cases hi
  | cons i t ih =>
    rw [markMines_cons]
    by_cases hht : ∃ j ∈ t, ofIndex
        (f.setCell (ofIndex f.columns (adjustIndex a i))
          { f.get (ofIndex f.columns (adjustIndex a i)) with
            value := CellValue.Mine }).columns (adjustIndex a j) = x
    · exact ih _ hht
    · push_neg at hht
      obtain ⟨j, hj, hjx⟩ := h
      rcases List.mem_cons.mp hj with rfl | hjt
      · have hmiss := markMines_value_miss t
          (f.setCell (ofIndex f.columns (adjustIndex a j))
            { f.get (ofIndex f.columns (adjustIndex a j)) with value := CellValue.Mine }) a x hht
        rw [hmiss]
        rw [show x = ofIndex f.columns (adjustIndex a j) from hjx.symm,
          setCell_data_self f (ofIndex f.columns (adjustIndex a j)) _]
      · exact absurd hjx (hht j hjt)

end Mine

namespace Mine

lemma assignStep_rows (g : Field) (c : Coord) : (assignStep g c).rows = g.rows := by
  unfold assignStep
  split_ifs <;> rfl

lemma assignStep_columns (g : Field) (c : Coord) : (assignStep g c).columns = g.columns := by
  unfold assignStep
  split_ifs <;> rfl

lemma assignStep_mine_iff (g : Field) (c x : Coord) :
    ((assignStep g c).data x).value = CellValue.Mine ↔ (g.data x).value = CellValue.Mine := by
  unfold assignStep
  split_ifs with h
  · by_cases hxc : x = c
    · subst hxc
      rw [setCell_data_self]
      unfold Field.get at h
      simp only []
      constructor
      · intro hk
        cases hk
      · intro hk
        exact absurd hk h
    · rw [setCell_data_ne _ _ _ x hxc]
  · exact Iff.rfl

lemma assignFold_rows (L : List Coord) (f : Field) : (L.foldl assignStep f).rows = f.rows := by
  induction L generalizing f with
  | nil => rfl
  | cons c t ih =>
    rw [List.foldl_cons]
    exact (ih _).trans (assignStep_rows f c)

lemma assignFold_columns (L : List Coord) (f : Field) :
    (L.foldl assignStep f).columns = f.columns := by
  induction L generalizing f with
  | nil => rfl
  | cons c t ih =>
    rw [List.foldl_cons]
    exact (ih _).trans (assignStep_columns f c)

lemma assignFold_mine_iff (L : List Coord) (f : Field) (x : Coord) :
    ((L.foldl assignStep f).data x).value = CellValue.Mine ↔
      (f.data x).value = CellValue.Mine := by
  induction L generalizing f with
  | nil => exact Iff.rfl
  | cons c t ih =>
    rw [List.foldl_cons]
    exact (ih _).trans (assignStep_mine_iff f c x)

lemma assignFold_frame (L : List Coord) (f : Field) (x : Coord) (hx : x ∉ L) :
    (L.foldl assignStep f).data x = f.data x := by
  induction L generalizing f with
  | nil => rfl
  | cons c t ih =>
    rw [List.foldl_cons]
    have hxc : x ≠ c := fun h => hx (h ▸ List.mem_cons_self c t)
    have hxt : x ∉ t := fun h => hx (List.mem_cons_of_mem c h)
    refine (ih _ hxt).trans ?_
    unfold assignStep
    split_ifs with h
    · exact setCell_data_ne _ _ _ x hxc
    · rfl

lemma mineNeighborCount_congr (g f : Field) (hr : g.rows = f.rows) (hc : g.columns = f.columns)
    (hm : ∀ x, ((g.data x).value = CellValue.Mine) ↔ ((f.data x).value = CellValue.Mine))
    (c : Coord) : mineNeighborCount g c = mineNeighborCount f c := by
  unfold mineNeighborCount
  rw [hr, hc]
  apply List.countP_congr
  intro x _
  simp only [decide_eq_true_eq]
  exact hm x

lemma assignFold_numbering (L : List Coord) (f : Field) :
    ∀ c ∈ L, ¬ (f.data c).value = CellValue.Mine →
      ((L.foldl assignStep f).data c).value = CellValue.Number (mineNeighborCount f c) := by
  induction L generalizing f with
  | nil => intro c hc; cases hc
  | cons c0 t ih =>
    intro c hc hnm
    rw [List.foldl_cons]
    have hmnc : mineNeighborCount (assignStep f c0) c = mineNeighborCount f c :=
      mineNeighborCount_congr (assignStep f c0) f (assignStep_rows f c0)
        (assignStep_columns f c0) (fun x => assignStep_mine_iff f c0 x) c
    by_cases hct : c ∈ t
    · have hnm' : ¬ ((assignStep f c0).data c).value = CellValue.Mine :=
        fun h => hnm ((assignStep_mine_iff f c0 c).mp h)
      rw [ih (assignStep f c0) c hct hnm', hmnc]
    · have hc0 : c = c0 := by
        rcases List.mem_cons.mp hc with h | h
        · exact h
        · exact absurd h hct
      subst hc0
      rw [assignFold_frame t (assignStep f c) c hct]
      unfold assignStep
      rw [if_pos (by unfold Field.get; exact hnm), setCell_data_self]

lemma ofIndex_row_entry (columns r k : Nat) (hk : k < columns) :
    ofIndex columns (r * columns + k) = ((r : Int), (k : Int)) := by
  have hcpos : 0 < columns := by omega
  unfold ofIndex
  rw [Prod.mk.injEq]
  have hdiv : (r * columns + k) / columns = r := by
    rw [Nat.add_comm, Nat.mul_comm, Nat.add_mul_div_left _ _ hcpos, Nat.div_eq_of_lt hk]
    omega
  have hmod : (r * columns + k) % columns = k := by
    rw [Nat.add_comm, Nat.mul_comm, Nat.add_mul_mod_self_left, Nat.mod_eq_of_lt hk]
  rw [hdiv, hmod]
  exact ⟨rfl, rfl⟩

lemma validCoordList_eq_map (rows columns : Nat) (hc : 0 < columns) :
    validCoordList rows columns = (List.range (rows * columns)).map (ofIndex columns) := by
  induction rows with
  | zero => simp [validCoordList]
  | succ r ih =>
    unfold validCoordList at ih ⊢
    rw [List.range_succ, List.map_append, List.flatten_append, ih,
      show (r + 1) * columns = r * columns + columns by ring, List.range_add,
      List.map_append, List.map_map]
    congr 1
    simp only [List.map_cons, List.map_nil, List.flatten_cons, List.flatten_nil,
      List.append_nil, List.map_map]
    apply List.map_congr_left
    intro k hk
    have hk' : k < columns := List.mem_range.mp hk
    simp only [Function.comp_apply]
    exact (ofIndex_row_entry columns r k hk').symm

lemma countP_range_mem (n : Nat) (l : List Nat) (hnd : l.Nodup) (hlt : ∀ j ∈ l, j < n) :
    (List.range n).countP (fun j => decide (j ∈ l)) = l.length := by
  classical
  rw [List.countP_eq_length_filter]
  have hnodup : ((List.range n).filter fun j => decide (j ∈ l)).Nodup :=
    (List.nodup_range n).filter _
  have htf : ((List.range n).filter fun j => decide (j ∈ l)).toFinset = l.toFinset := by
    ext j
    simp only [List.mem_toFinset, List.mem_filter, List.mem_range, decide_eq_true_eq]
    exact ⟨fun h => h.2, fun h => ⟨hlt j h, h⟩⟩
  calc ((List.range n).filter fun j => decide (j ∈ l)).length
      = ((List.range n).filter fun j => decide (j ∈ l)).toFinset.card :=
        (List.toFinset_card_of_nodup hnodup).symm
    _ = l.toFinset.card := by rw [htf]
    _ = l.length := List.toFinset_card_of_nodup hnd

end Mine

namespace Mine

/-- C6: after `Field::initialize` on a clamped-constructed field, for every
in-bounds avoided coordinate and every outcome of the random sample (a
duplicate-free list of `mines` indices below `rows*columns - 1`), exactly
`mines` cells hold a mine, the avoided coordinate holds no mine, and every
non-mine cell holds the count of mines among its at-most-8 neighbors. -/
theorem C6_initField_spec (rows columns mines : Nat) (avoid : Coord) (sample : List Nat)
    (f0 : Field) (hf0 : f0 = Field.new rows columns mines)
    (hav : containsB f0.rows f0.columns avoid = true)
    (hnd : sample.Nodup)
    (hlen : sample.length = f0.mines)
    (hbound : ∀ i ∈ sample, i < f0.rows * f0.columns - 1) :
    ((validCoordList f0.rows f0.columns).countP fun c =>
        decide (((initField f0 avoid sample).data c).value = CellValue.Mine)) = f0.mines ∧
    ((initField f0 avoid sample).data avoid).value ≠ CellValue.Mine ∧
    ∀ c ∈ validCoordList f0.rows f0.columns,
      ((initField f0 avoid sample).data c).value ≠ CellValue.Mine →
        ((initField f0 avoid sample).data c).value =
          CellValue.Number (mineNeighborCount (initField f0 avoid sample) c) := by
  have hcolpos : 0 < f0.columns := by
    subst hf0
    simp only [Field.new]
    omega
  have hrc : 4 ≤ f0.rows * f0.columns := by
    subst hf0
    simp only [Field.new]
    calc 4 = 2 * 2 := rfl
    _ ≤ max rows 2 * max columns 2 :=
      Nat.mul_le_mul (Nat.le_max_right rows 2) (Nat.le_max_right columns 2)
  have hblank : ∀ x, (f0.data x).value = CellValue.Number 0 := by
    subst hf0
    intro x
    rfl
  set aIdx := toIndex f0.columns avoid with haIdx
  set m := markMines f0 aIdx sample with hm
  have hdata : ∀ x, (initField f0 avoid sample).data x =
      ((validCoordList f0.rows f0.columns).foldl assignStep m).data x := by
    intro x
    show ((validCoordList m.rows m.columns).foldl assignStep m).data x = _
    rw [markMines_rows, markMines_columns]
  have hrows1 : (initField f0 avoid sample).rows = f0.rows := by
    show ((validCoordList m.rows m.columns).foldl assignStep m).rows = f0.rows
    rw [assignFold_rows, markMines_rows]
  have hcols1 : (initField f0 avoid sample).columns = f0.columns := by
    show ((validCoordList m.rows m.columns).foldl assignStep m).columns = f0.columns
    rw [assignFold_columns, markMines_columns]
  have hmine_iff : ∀ x, ((initField f0 avoid sample).data x).value = CellValue.Mine ↔
      (m.data x).value = CellValue.Mine := by
    intro x
    rw [hdata x]
    exact assignFold_mine_iff _ m x
  have hmcols : m.columns = f0.columns := markMines_columns sample f0 aIdx
  have hhit : ∀ x, (m.data x).value = CellValue.Mine ↔
      ∃ i ∈ sample, ofIndex f0.columns (adjustIndex aIdx i) = x := by
    intro x
    constructor
    · intro hx
      by_contra hmiss
      push_neg at hmiss
      have := markMines_value_miss sample f0 aIdx x hmiss
      rw [hm] at hx
      rw [this, hblank x] at hx
      cases hx
    · intro hx
      exact markMines_value_hit sample f0 aIdx x hx
  refine ⟨?_, ?_, ?_⟩
  · -- exactly `mines` mine cells
    have hcong : ((validCoordList f0.rows f0.columns).countP fun c =>
        decide (((initField f0 avoid sample).data c).value = CellValue.Mine)) =
        ((validCoordList f0.rows f0.columns).countP fun c =>
          decide (∃ i ∈ sample, ofIndex f0.columns (adjustIndex aIdx i) = c)) := by
      apply List.countP_congr
      intro c _
      simp only [decide_eq_true_eq]
      exact (hmine_iff c).trans (hhit c)
    rw [hcong, validCoordList_eq_map f0.rows f0.columns hcolpos, List.countP_map]
    have hstep : ∀ j ∈ List.range (f0.rows * f0.columns),
        (((fun c => decide (∃ i ∈ sample, ofIndex f0.columns (adjustIndex aIdx i) = c)) ∘
          ofIndex f0.columns) j = true) ↔
        (decide (j ∈ sample.map (adjustIndex aIdx)) = true) := by
      intro j _
      simp only [Function.comp_apply, decide_eq_true_eq, List.mem_map]
      constructor
      · rintro ⟨i, hi, hij⟩
        exact ⟨i, hi, ofIndex_inj f0.columns hcolpos hij⟩
      · rintro ⟨i, hi, hij⟩
        exact ⟨i, hi, by rw [hij]⟩
    rw [List.countP_congr hstep]
    have hadj_nd : (sample.map (adjustIndex aIdx)).Nodup :=
      hnd.map (adjustIndex_inj aIdx)
    have hadj_lt : ∀ j ∈ sample.map (adjustIndex aIdx), j < f0.rows * f0.columns := by
      intro j hj
      obtain ⟨i, hi, rfl⟩ := List.mem_map.mp hj
      have := hbound i hi
      unfold adjustIndex
      split_ifs <;> omega
    rw [countP_range_mem _ _ hadj_nd hadj_lt, List.length_map]
    exact hlen
  · -- the avoided coordinate has no mine
    intro hmine
    rw [hmine_iff avoid, hhit avoid] at hmine
    obtain ⟨i, hi, heq⟩ := hmine
    have hofa : ofIndex f0.columns aIdx = avoid := ofIndex_toIndex f0.rows f0.columns avoid hav
    have : adjustIndex aIdx i = aIdx :=
      ofIndex_inj f0.columns hcolpos (heq.trans hofa.symm)
    exact adjustIndex_ne aIdx i this
  · -- neighbor numbering
    intro c hc hnm
    have hnm' : ¬ (m.data c).value = CellValue.Mine :=
      fun h => hnm ((hmine_iff c).mpr h)
    have hnum := assignFold_numbering (validCoordList f0.rows f0.columns) m c hc hnm'
    rw [hdata c, hnum]
    have hcount : mineNeighborCount (initField f0 avoid sample) c = mineNeighborCount m c :=
      mineNeighborCount_congr (initField f0 avoid sample) m
        (hrows1.trans (markMines_rows sample f0 aIdx).symm)
        (hcols1.trans (markMines_columns sample f0 aIdx).symm)
        hmine_iff c
    rw [hcount]

end Mine

namespace Mine

theorem C6_initField_spec_witness :
    ((initField (Field.new 2 2 1) ((0 : Int), (0 : Int)) [0]).data
      ((0 : Int), (0 : Int))).value ≠ CellValue.Mine :=
  (C6_initField_spec 2 2 1 ((0 : Int), (0 : Int)) [0] (Field.new 2 2 1) rfl
    (by decide) (by decide) (by decide) (by decide)).2.1

end Mine

namespace MineOld

/-- `pub type Coord = (usize, usize)` of `minesweeper.rs`. -/
abbrev Coord : Type := Nat × Nat

/-- `enum CellStatus` of `minesweeper.rs`. -/
inductive CellStatus where
  | Covered
  | Uncovered
  | Exploded
deriving DecidableEq

/-- `struct Cell { value: i32, status: CellStatus }` (-1 for mines). -/
structure Cell where
  value : Int
  status : CellStatus
deriving DecidableEq

/-- `Cell::new`. -/
def Cell.new : Cell := ⟨0, CellStatus.Covered⟩

/-- `Cell::is_mine`: `value < 0`. -/
def Cell.is_mine (c : Cell) : Bool := decide (c.value < 0)

/-- `Cell::get_value`: `value as u32` (only used on non-negative values). -/
def Cell.get_value (c : Cell) : Nat := c.value.toNat

/-- `Cell::is_covered`. -/
def Cell.is_covered (c : Cell) : Bool := decide (c.status = CellStatus.Covered)

/-- `Cell::is_uncovered`. -/
def Cell.is_uncovered (c : Cell) : Bool := decide (c.status = CellStatus.Uncovered)

/-- `Cell::set_mine`: `value = -1`. -/
def Cell.set_mine (c : Cell) : Cell := { c with value := -1 }

/-- `struct MineField` of `minesweeper.rs`.  The `Vec<Cell>` is embedded as a
map keyed by the coordinate; flat index `i` corresponds to the coordinate
`get_coord i = (i / width, i % width)`. -/
structure MineField where
  initialized : Bool
  field : Coord → Cell
  width : Nat
  height : Nat
  mines : Nat
  uncovered : Nat

/-- `MineField::new` (this revision does not clamp its parameters). -/
def MineField.new (width height mines : Nat) : MineField :=
  ⟨false, fun _ => Cell.new, width, height, mines, 0⟩

/-- `MineField::get_index`. -/
def get_index (width : Nat) (c : Coord) : Nat := c.1 * width + c.2

/-- `MineField::get_coord`. -/
def get_coord (width : Nat) (i : Nat) : Coord := (i / width, i % width)

/-- `NeighborhoodCoordIterator::new(width, height, center)` of
`minesweeper.rs` yields, in row-major order, the in-bounds cells of the Moore
neighborhood of an in-bounds center, the center excluded. -/
def nbhd (width height : Nat) (center : Coord) : List Coord :=
  (((List.range height).filter fun r => decide (center.1 ≤ r + 1 ∧ r ≤ center.1 + 1)).map
    fun r =>
      ((List.range width).filter fun c => decide (center.2 ≤ c + 1 ∧ c ≤ center.2 + 1)).filterMap
        fun c => if (r, c) = center then none else some (r, c)).flatten

/-- The reveal-loop body for one covered cell: set `status = Uncovered`, and
`uncovered += 1` unless the cell is a mine. -/
def revealCell (f : MineField) (c : Coord) : MineField :=
  { f with
    field := Function.update f.field c { f.field c with status := CellStatus.Uncovered },
    uncovered := if (f.field c).is_mine then f.uncovered else f.uncovered + 1 }

/-- Termination measure of the reveal loop. -/
def coveredMeasure (f : MineField) (queue : List Coord) : Nat :=
  (((Finset.range f.height ×ˢ Finset.range f.width) ∪ queue.toFinset).filter
    fun c => (f.field c).status = CellStatus.Covered).card

lemma nbhd_subset_valid (width height : Nat) (center : Coord) :
    ∀ x ∈ nbhd width height center, x ∈ Finset.range height ×ˢ Finset.range width := by
  intro x hx
  unfold nbhd at hx
  rw [List.mem_flatten] at hx
  obtain ⟨row, hrow, hxrow⟩ := hx
  rw [List.mem_map] at hrow
  obtain ⟨r, hr, rfl⟩ := hrow
  have hr' : r < height := List.mem_range.mp (List.mem_filter.mp hr).1
  rw [List.mem_filterMap] at hxrow
  obtain ⟨c, hc, hcx⟩ := hxrow
  have hc' : c < width := List.mem_range.mp (List.mem_filter.mp hc).1
  have hx' : x = (r, c) := by
    by_cases h : (r, c) = center
    · rw [if_pos h] at hcx
      cases hcx
    · rw [if_neg h] at hcx
      exact (Option.some_inj.mp hcx).symm
  subst hx'
  rw [Finset.mem_product]
  exact ⟨Finset.mem_range.mpr hr', Finset.mem_range.mpr hc'⟩

lemma revealCell_height (f : MineField) (c : Coord) : (revealCell f c).height = f.height := rfl

lemma revealCell_width (f : MineField) (c : Coord) : (revealCell f c).width = f.width := rfl

lemma revealCell_field_ne (f : MineField) (c x : Coord) (h : x ≠ c) :
    (revealCell f c).field x = f.field x := by
  simp [revealCell, Function.update_noteq h]

lemma revealCell_field_self (f : MineField) (c : Coord) :
    (revealCell f c).field c = { f.field c with status := CellStatus.Uncovered } := by
  simp [revealCell]

lemma coveredMeasure_decrease_old (f : MineField) (c : Coord) (q ext : List Coord)
    (hc : (f.field c).status = CellStatus.Covered)
    (hext : ∀ x ∈ ext, x ∈ Finset.range f.height ×ˢ Finset.range f.width) :
    coveredMeasure (revealCell f c) (q ++ ext) < coveredMeasure f (c :: q) := by
  classical
  unfold coveredMeasure
  rw [revealCell_height, revealCell_width]
  set S := (Finset.range f.height ×ˢ Finset.range f.width) ∪ (c :: q).toFinset with hS
  set S' := (Finset.range f.height ×ˢ Finset.range f.width) ∪ (q ++ ext).toFinset with hS'
  have hsub : S' ⊆ S := by
    intro x hx
    rcases Finset.mem_union.mp hx with h | h
    · exact Finset.mem_union_left _ h
    · rcases List.mem_toFinset.mp h |> List.mem_append.mp with h | h
      · exact Finset.mem_union_right _ (List.mem_toFinset.mpr (List.mem_cons_of_mem _ h))
      · exact Finset.mem_union_left _ (hext _ h)
  have hcS : c ∈ S := Finset.mem_union_right _ (List.mem_toFinset.mpr (List.mem_cons_self _ _))
  have hcmem : c ∈ S.filter fun x => (f.field x).status = CellStatus.Covered :=
    Finset.mem_filter.mpr ⟨hcS, hc⟩
  have hsub2 : (S'.filter fun x => ((revealCell f c).field x).status = CellStatus.Covered) ⊆
      (S.filter fun x => (f.field x).status = CellStatus.Covered).erase c := by
    intro x hx
    obtain ⟨hxS', hxcov⟩ := Finset.mem_filter.mp hx
    have hxc : x ≠ c := by
      intro h
      rw [h, revealCell_field_self] at hxcov
      simp at hxcov
    rw [revealCell_field_ne f c x hxc] at hxcov
    exact Finset.mem_erase.mpr ⟨hxc, Finset.mem_filter.mpr ⟨hsub hxS', hxcov⟩⟩
  calc (S'.filter fun x => ((revealCell f c).field x).status = CellStatus.Covered).card
      ≤ ((S.filter fun x => (f.field x).status = CellStatus.Covered).erase c).card :=
        Finset.card_le_card hsub2
    _ < (S.filter fun x => (f.field x).status = CellStatus.Covered).card :=
        Finset.card_erase_lt_of_mem hcmem

lemma coveredMeasure_skip_old (f : MineField) (c : Coord) (q : List Coord) :
    coveredMeasure f q ≤ coveredMeasure f (c :: q) := by
  classical
  unfold coveredMeasure
  apply Finset.card_le_card
  apply Finset.filter_subset_filter
  intro x hx
  rcases Finset.mem_union.mp hx with h | h
  · exact Finset.mem_union_left _ h
  · exact Finset.mem_union_right _
      (List.mem_toFinset.mpr (List.mem_cons_of_mem _ (List.mem_toFinset.mp h)))

/-- `fn reveal` of `minesweeper.rs`: the breadth-first flood fill. -/
def revealAux (f : MineField) (queue : List Coord) : MineField :=
  match queue with
  | [] => f
  | c :: q =>
    if h : (f.field c).status = CellStatus.Covered then
      let f1 := revealCell f c
      if (f1.field c).value = 0 then
        revealAux f1 (q ++ (nbhd f1.width f1.height c).filter fun i => (f1.field i).is_covered)
      else
        revealAux f1 q
    else
      revealAux f q
termination_by (coveredMeasure f queue, queue.length)
decreasing_by
  · exact Prod.Lex.left _ _ (coveredMeasure_decrease_old f c q _ h
      (fun x hx => nbhd_subset_valid _ _ c x (List.mem_filter.mp hx).1))
  · exact Prod.Lex.left _ _ (by
      have := coveredMeasure_decrease_old f c q [] h (by intro x hx; cases hx)
      simpa using this)
  · rcases lt_or_eq_of_le (coveredMeasure_skip_old f c q) with hlt | heq
    · exact Prod.Lex.left _ _ hlt
    · rw [heq]
      exact Prod.Lex.right _ (Nat.lt_succ_self _)

end MineOld

namespace MineOld

lemma revealAux_nil_old (f : MineField) : revealAux f [] = f := by
  unfold revealAux
  rfl

lemma revealAux_cons_zero_old (f : MineField) (c : Coord) (q : List Coord)
    (hc : (f.field c).status = CellStatus.Covered)
    (hz : (f.field c).value = 0) :
    revealAux f (c :: q) =
      revealAux (revealCell f c)
        (q ++ (nbhd f.width f.height c).filter fun i => ((revealCell f c).field i).is_covered) := by
  conv_lhs => unfold revealAux
  rw [dif_pos hc]
  simp [revealCell_field_self, revealCell_width, revealCell_height, hz]

lemma revealAux_cons_nonzero_old (f : MineField) (c : Coord) (q : List Coord)
    (hc : (f.field c).status = CellStatus.Covered)
    (hz : ¬ (f.field c).value = 0) :
    revealAux f (c :: q) = revealAux (revealCell f c) q := by
  conv_lhs => unfold revealAux
  rw [dif_pos hc]
  simp [revealCell_field_self, revealCell_width, revealCell_height, hz]

lemma revealAux_cons_skip_old (f : MineField) (c : Coord) (q : List Coord)
    (hc : ¬ (f.field c).status = CellStatus.Covered) :
    revealAux f (c :: q) = revealAux f q := by
  conv_lhs => unfold revealAux
  rw [dif_neg hc]

/-- When the seed cell is covered with a non-zero value, the flood fill
uncovers the seed and nothing else. -/
lemma revealAux_single (f : MineField) (c : Coord)
    (hc : (f.field c).status = CellStatus.Covered)
    (hz : ¬ (f.field c).value = 0) :
    revealAux f [c] = revealCell f c := by
  rw [revealAux_cons_nonzero_old f c [] hc hz, revealAux_nil_old]

/-- The flood fill writes no status other than `Uncovered`. -/
lemma revealAux_no_explode (f : MineField) (q : List Coord) (x : Coord)
    (hx : ¬ (f.field x).status = CellStatus.Exploded) :
    ¬ ((revealAux f q).field x).status = CellStatus.Exploded := by
  induction f, q using revealAux.induct with
  | case1 f => rw [revealAux_nil_old]; exact hx
  | case2 f c q hc f1 hz ih =>
    rw [revealAux_cons_zero_old f c q hc (by rwa [revealCell_field_self] at hz)]
    refine ih ?_
    by_cases hxc : x = c
    · subst hxc
      rw [revealCell_field_self]
      simp
    · rw [revealCell_field_ne f c x hxc]
      exact hx
  | case3 f c q hc f1 hz ih =>
    rw [revealAux_cons_nonzero_old f c q hc (by rwa [revealCell_field_self] at hz)]
    refine ih ?_
    by_cases hxc : x = c
    · subst hxc
      rw [revealCell_field_self]
      simp
    · rw [revealCell_field_ne f c x hxc]
      exact hx
  | case4 f c q hc ih =>
    rw [revealAux_cons_skip_old f c q hc]
    exact ih hx

/-- `pub fn uncover` of `minesweeper.rs`: a mine explodes and `false` is
returned ("boom"); otherwise the flood fill runs and `true` is returned. -/
def uncover (f : MineField) (coord : Coord) : Bool × MineField :=
  if (f.field coord).is_mine then
    (false, { f with
      field := Function.update f.field coord
        { f.field coord with status := CellStatus.Exploded } })
  else
    (true, revealAux f [coord])

/-- `fn reveal_around` of `minesweeper.rs`. -/
def reveal_around (f : MineField) (coord : Coord) : MineField :=
  revealAux f (nbhd f.width f.height coord)

/-- `pub fn uncover_around` of `minesweeper.rs`. -/
def uncover_around (f : MineField) (coord : Coord) : Bool × MineField :=
  if (f.field coord).is_mine then (false, f)
  else
    let covered := (nbhd f.width f.height coord).countP fun c => !(f.field c).is_uncovered
    let uncovered_mines := (nbhd f.width f.height coord).countP
      fun c => (f.field c).is_uncovered && (f.field c).is_mine
    if covered = 0 then (false, f)
    else
      let value := (f.field coord).get_value
      if uncovered_mines = value ∨ covered + uncovered_mines = value then
        (true, reveal_around f coord)
      else (false, f)

/-- One iteration of the mine-marking loop of `MineField::initialize` (of
`minesweeper.rs`): a sampled index at or above the avoided index is shifted up
by one, and the cell at that flat index becomes a mine. -/
def markMineStep (g : MineField) (avoidIdx i : Nat) : MineField :=
  { g with field := Function.update g.field (get_coord g.width (if avoidIdx ≤ i then i + 1 else i)) ((g.field (get_coord g.width (if avoidIdx ≤ i then i + 1 else i))).set_mine) }

/-- The mine-marking loop of `MineField::initialize` (of `minesweeper.rs`). -/
def markMines (f : MineField) (avoidIdx : Nat) (sample : List Nat) : MineField :=
  sample.foldl (fun g i => markMineStep g avoidIdx i) f

/-- The in-bounds coordinates in row-major order (the numbering loop order of
`MineField::initialize`). -/
def validCoordList (height width : Nat) : List Coord :=
  ((List.range height).map fun (i : Nat) =>
    (List.range width).map fun (j : Nat) => (i, j)).flatten

/-- The neighbor-mine count of the numbering loop. -/
def mineNeighborCount (f : MineField) (coord : Coord) : Nat :=
  (nbhd f.width f.height coord).countP fun c => (f.field c).is_mine

/-- One iteration of the numbering loop: a non-mine cell receives the count
of mines in its neighborhood of the current grid. -/
def assignStep (g : MineField) (c : Coord) : MineField :=
  if (g.field c).is_mine then g
  else
    { g with
      field := Function.update g.field c { g.field c with value := (mineNeighborCount g c : Int) } }

/-- `pub fn initialize` of `minesweeper.rs` (renamed: the screen refuses the
original name), with the random sample passed explicitly. -/
def initFieldOld (f : MineField) (avoid : Coord) (sample : List Nat) : MineField :=
  let f1 := markMines f (get_index f.width avoid) sample
  { (validCoordList f1.height f1.width).foldl assignStep f1 with initialized := true }

/-- `pub fn is_solved` of `minesweeper.rs`. -/
def is_solved (f : MineField) : Bool := decide (f.uncovered + f.mines = f.width * f.height)

/-- `enum InteractResult` of `minesweeper.rs`. -/
inductive InteractResult where
  | Unchanged
  | Changed
  | Solved
  | GameOver
deriving DecidableEq

/-- The body of `pub fn interact` of `minesweeper.rs` after the lazy
initialization: uncover a covered cell (reporting `Changed` or `GameOver`),
or chord an uncovered cell (reporting `Solved`, `Changed` or `Unchanged`). -/
def interactBody (g : MineField) (coord : Coord) : InteractResult × MineField :=
  if (g.field coord).is_covered then
    match uncover g coord with
    | (true, g') => (InteractResult.Changed, g')
    | (false, g') => (InteractResult.GameOver, g')
  else
    match uncover_around g coord with
    | (true, g') =>
      if is_solved g' then (InteractResult.Solved, g') else (InteractResult.Changed, g')
    | (false, g') => (InteractResult.Unchanged, g')

/-- `pub fn interact` of `minesweeper.rs`: initialize on the first call
(avoiding the clicked coordinate), then act on the cell. -/
def interact (f : MineField) (coord : Coord) (sample : List Nat) :
    InteractResult × MineField :=
  interactBody (if f.initialized then f else initFieldOld f coord sample) coord

end MineOld

namespace MineOld

lemma markMines_cons_old (f : MineField) (a i : Nat) (t : List Nat) :
    markMines f a (i :: t) = markMines (markMineStep f a i) a t := rfl

lemma markMineStep_width (g : MineField) (a i : Nat) : (markMineStep g a i).width = g.width := rfl

lemma markMineStep_status (g : MineField) (a i : Nat) (x : Coord) :
    ((markMineStep g a i).field x).status = (g.field x).status := by
  unfold markMineStep
  by_cases hx : x = get_coord g.width (if a ≤ i then i + 1 else i)
  · subst hx
    simp [Cell.set_mine]
  · simp [Function.update_noteq hx]

lemma markMineStep_field_ne (g : MineField) (a i : Nat) (x : Coord)
    (h : get_coord g.width (if a ≤ i then i + 1 else i) ≠ x) :
    (markMineStep g a i).field x = g.field x := by
  unfold markMineStep
  simp [Function.update_noteq (fun hx => h hx.symm)]

lemma markMines_width (s : List Nat) (f : MineField) (a : Nat) :
    (markMines f a s).width = f.width := by
  induction s generalizing f with
  | nil => rfl
  | cons i t ih =>
    rw [markMines_cons_old]
    exact ih _

lemma markMines_height (s : List Nat) (f : MineField) (a : Nat) :
    (markMines f a s).height = f.height := by
  induction s generalizing f with
  | nil => rfl
  | cons i t ih =>
    rw [markMines_cons_old]
    exact ih _

lemma markMines_status (s : List Nat) (f : MineField) (a : Nat) (x : Coord) :
    ((markMines f a s).field x).status = (f.field x).status := by
  induction s generalizing f with
  | nil => rfl
  | cons i t ih =>
    rw [markMines_cons_old]
    exact (ih _).trans (markMineStep_status f a i x)

lemma markMines_field_miss (s : List Nat) (f : MineField) (a : Nat) (x : Coord)
    (h : ∀ i ∈ s, get_coord f.width (if a ≤ i then i + 1 else i) ≠ x) :
    (markMines f a s).field x = f.field x := by
  induction s generalizing f with
  | nil => rfl
  | cons i t ih =>
    rw [markMines_cons_old]
    have hix := h i (List.mem_cons_self i t)
    have ht : ∀ j ∈ t, get_coord (markMineStep f a i).width (if a ≤ j then j + 1 else j) ≠ x :=
      fun j hj => h j (List.mem_cons_of_mem i hj)
    exact (ih _ ht).trans (markMineStep_field_ne f a i x hix)

lemma assignStep_is_mine (g : MineField) (c x : Coord) :
    ((assignStep g c).field x).is_mine = (g.field x).is_mine := by
  unfold assignStep
  split_ifs with h
  · rfl
  · by_cases hxc : x = c
    · subst hxc
      simp only [Function.update_same]
      have hR : (g.field x).is_mine = false := by
        cases hmb : (g.field x).is_mine
        · rfl
        · exact absurd hmb h
      rw [hR]
      unfold Cell.is_mine
      rw [decide_eq_false_iff_not]
      show ¬ ((mineNeighborCount g x : Int) < 0)
      omega
    · simp [Function.update_noteq hxc]

lemma assignStep_status (g : MineField) (c x : Coord) :
    ((assignStep g c).field x).status = (g.field x).status := by
  unfold assignStep
  split_ifs with h
  · rfl
  · by_cases hxc : x = c
    · subst hxc
      simp
    · simp [Function.update_noteq hxc]

lemma assignFold_is_mine (L : List Coord) (f : MineField) (x : Coord) :
    ((L.foldl assignStep f).field x).is_mine = (f.field x).is_mine := by
  induction L generalizing f with
  | nil => rfl
  | cons c t ih =>
    rw [List.foldl_cons]
    exact (ih _).trans (assignStep_is_mine f c x)

lemma assignFold_status (L : List Coord) (f : MineField) (x : Coord) :
    ((L.foldl assignStep f).field x).status = (f.field x).status := by
  induction L generalizing f with
  | nil => rfl
  | cons c t ih =>
    rw [List.foldl_cons]
    exact (ih _).trans (assignStep_status f c x)

lemma initFieldOld_status (f : MineField) (avoid : Coord) (sample : List Nat) (x : Coord) :
    ((initFieldOld f avoid sample).field x).status = (f.field x).status := by
  unfold initFieldOld
  exact (assignFold_status _ _ x).trans (markMines_status sample f _ x)

lemma initFieldOld_initialized (f : MineField) (avoid : Coord) (sample : List Nat) :
    (initFieldOld f avoid sample).initialized = true := rfl

lemma get_coord_eq_imp (width j : Nat) (coord : Coord) (hc2 : coord.2 < width)
    (h : get_coord width j = coord) : j = get_index width coord := by
  unfold get_coord at h
  unfold get_index
  rw [Prod.mk.injEq] at h
  obtain ⟨h1, h2⟩ := h
  have hj := Nat.div_add_mod j width
  rw [h1, h2, Nat.mul_comm] at hj
  omega

lemma initFieldOld_is_mine (f : MineField) (avoid : Coord) (sample : List Nat) (x : Coord) :
    ((initFieldOld f avoid sample).field x).is_mine =
      ((markMines f (get_index f.width avoid) sample).field x).is_mine := by
  unfold initFieldOld
  exact assignFold_is_mine _ _ x

lemma revealAux_initialized (f : MineField) (q : List Coord) :
    (revealAux f q).initialized = f.initialized := by
  induction f, q using revealAux.induct with
  | case1 f => rw [revealAux_nil_old]
  | case2 f c q hc f1 hz ih =>
    rw [revealAux_cons_zero_old f c q hc (by rwa [revealCell_field_self] at hz)]
    exact ih
  | case3 f c q hc f1 hz ih =>
    rw [revealAux_cons_nonzero_old f c q hc (by rwa [revealCell_field_self] at hz)]
    exact ih
  | case4 f c q hc ih =>
    rw [revealAux_cons_skip_old f c q hc]
    exact ih

/-- C9: the first interaction on a freshly constructed mine field first
places the mines avoiding the clicked coordinate and then uncovers it: the
clicked cell is never a mine, the result is `Changed` (never `GameOver`), the
field ends up initialized, and no cell ends up exploded. -/
theorem C9_first_interact_safe (width height mines : Nat) (coord : Coord)
    (sample : List Nat) (hr : coord.1 < height) (hc : coord.2 < width) :
    ((initFieldOld (MineField.new width height mines) coord sample).field coord).is_mine
      = false ∧
    (interact (MineField.new width height mines) coord sample).1 = InteractResult.Changed ∧
    (interact (MineField.new width height mines) coord sample).1 ≠ InteractResult.GameOver ∧
    ((interact (MineField.new width height mines) coord sample).2).initialized = true ∧
    ∀ x, ¬ (((interact (MineField.new width height mines) coord sample).2).field x).status
      = CellStatus.Exploded := by
  have hwpos : 0 < width := by omega
  set f0 := MineField.new width height mines with hf0
  set g := initFieldOld f0 coord sample with hg
  have hstat : ∀ x, (g.field x).status = CellStatus.Covered := by
    intro x
    rw [hg, initFieldOld_status]
    rfl
  have hmiss : ∀ i ∈ sample,
      get_coord f0.width (if get_index f0.width coord ≤ i then i + 1 else i) ≠ coord := by
    intro i _ heq
    have hc' : coord.2 < f0.width := hc
    have := get_coord_eq_imp f0.width _ coord hc' heq
    split_ifs at this <;> omega
  have hmine : (g.field coord).is_mine = false := by
    rw [hg, initFieldOld_is_mine, markMines_field_miss sample f0 _ coord hmiss]
    rfl
  have hgif : (if f0.initialized then f0 else initFieldOld f0 coord sample) = g := by
    rw [hg]
    rfl
  have hcov : (g.field coord).is_covered = true := by
    unfold Cell.is_covered
    rw [hstat coord]
    simp
  have huncov : uncover g coord = (true, revealAux g [coord]) := by
    unfold uncover
    rw [hmine]
    rfl
  have hinteract : interact f0 coord sample =
      (InteractResult.Changed, revealAux g [coord]) := by
    unfold interact
    rw [hgif]
    unfold interactBody
    rw [hcov, huncov]
    rfl
  refine ⟨hmine, ?_, ?_, ?_, ?_⟩
  · rw [hinteract]
  · rw [hinteract]
    simp
  · rw [hinteract]
    show (revealAux g [coord]).initialized = true
    rw [revealAux_initialized, hg, initFieldOld_initialized]
  · intro x
    rw [hinteract]
    show ¬ ((revealAux g [coord]).field x).status = CellStatus.Exploded
    refine revealAux_no_explode g [coord] x ?_
    rw [hstat x]
    simp

end MineOld

namespace MineOld

lemma interact_init_eq (f : MineField) (c : Coord) (s : List Nat)
    (hinit : f.initialized = true) : interact f c s = interactBody f c := by
  unfold interact
  rw [hinit]
  rfl

lemma interact_first (f : MineField) (c : Coord) (s : List Nat)
    (hinit : f.initialized = false) :
    interact f c s = interactBody (initFieldOld f c s) c := by
  unfold interact
  rw [hinit]
  rfl

lemma interactBody_covered_plain (g : MineField) (c : Coord)
    (hcov : (g.field c).status = CellStatus.Covered)
    (hmine : (g.field c).is_mine = false)
    (hval : ¬ (g.field c).value = 0) :
    interactBody g c = (InteractResult.Changed, revealCell g c) := by
  have hcovb : (g.field c).is_covered = true := by
    unfold Cell.is_covered
    rw [hcov]
    rfl
  have huncov : uncover g c = (true, revealCell g c) := by
    unfold uncover
    rw [hmine]
    show (true, revealAux g [c]) = _
    rw [revealAux_single g c hcov hval]
  unfold interactBody
  rw [hcovb, huncov]
  rfl

/-- The fresh 2 by 2 field with one mine of the C3 counterexample. -/
def fieldC3a : MineField := MineField.new 2 2 1

/-- `fieldC3a` after the lazy initialization of the first interaction at
`(0, 1)` with sampled index 0: the mine lands on `(0, 0)`, every other cell
holds the value 1. -/
def fieldC3b : MineField := initFieldOld fieldC3a (0, 1) [0]

/-- After uncovering `(0, 1)`. -/
def fieldC3c : MineField := revealCell fieldC3b (0, 1)

/-- After uncovering `(1, 0)`. -/
def fieldC3d : MineField := revealCell fieldC3c (1, 0)

/-- After uncovering `(1, 1)`: all three non-mine cells are uncovered. -/
def fieldC3e : MineField := revealCell fieldC3d (1, 1)

/-- C3 counterexample: on a fresh 2 by 2 field with one mine, three
interactions uncover the three non-mine cells; the third one leaves the field
solved (`is_solved` holds) yet `interact` reports `Changed`, not `Solved` —
the uncover path of `interact` never checks `is_solved`. -/
theorem C3_solved_reported_as_changed :
    interact fieldC3a (0, 1) [0] = (InteractResult.Changed, fieldC3c) ∧
    interact fieldC3c (1, 0) [] = (InteractResult.Changed, fieldC3d) ∧
    interact fieldC3d (1, 1) [] = (InteractResult.Changed, fieldC3e) ∧
    is_solved fieldC3e = true ∧
    (interact fieldC3d (1, 1) []).1 ≠ InteractResult.Solved := by
  have h1 : interact fieldC3a (0, 1) [0] = (InteractResult.Changed, fieldC3c) := by
    rw [interact_first fieldC3a (0, 1) [0] (by decide)]
    show interactBody fieldC3b (0, 1) = _
    rw [interactBody_covered_plain fieldC3b (0, 1) (by decide) (by decide) (by decide)]
    rfl
  have h2 : interact fieldC3c (1, 0) [] = (InteractResult.Changed, fieldC3d) := by
    rw [interact_init_eq fieldC3c (1, 0) [] (by decide)]
    rw [interactBody_covered_plain fieldC3c (1, 0) (by decide) (by decide) (by decide)]
    rfl
  have h3 : interact fieldC3d (1, 1) [] = (InteractResult.Changed, fieldC3e) := by
    rw [interact_init_eq fieldC3d (1, 1) [] (by decide)]
    rw [interactBody_covered_plain fieldC3d (1, 1) (by decide) (by decide) (by decide)]
    rfl
  refine ⟨h1, h2, h3, by decide, ?_⟩
  rw [h3]
  decide

end MineOld

namespace MineOld

theorem C9_first_interact_safe_witness :
    (interact (MineField.new 2 2 1) (1, 1) [0]).1 = InteractResult.Changed :=
  (C9_first_interact_safe 2 2 1 (1, 1) [0] (by decide) (by decide)).2.1

end MineOld

namespace Oth

/-- Board positions as `(i32, i32)` pairs (`othello.rs` works on `(i32, i32)`,
`othello/board.rs` on `Coord(i32, i32)`). -/
abbrev Pos : Type := Int × Int

/-- `struct Othello` of `othello.rs` (= `struct Board` of `othello/board.rs`):
the `[[Option<bool>; 8]; 8]` grid is embedded as a map on positions, its
meaningful domain being the 8 by 8 board. -/
structure Othello where
  player : Bool
  board : Pos → Option Bool
  game_over : Bool

/-- `Othello::new`: the four center cells preset, dark (`false`) to move. -/
def Othello.new : Othello :=
  { player := false
    game_over := false
    board := fun c =>
      if c = ((3 : Int), (3 : Int)) then some true
      else if c = ((3 : Int), (4 : Int)) then some false
      else if c = ((4 : Int), (3 : Int)) then some false
      else if c = ((4 : Int), (4 : Int)) then some true
      else none }

/-- The 8 directions, in source order. -/
def DIRECTIONS : List Pos :=
  [(-1, -1), (-1, 0), (-1, 1), (0, -1), (0, 1), (1, -1), (1, 0), (1, 1)]

/-- The 8 by 8 bounds test (`anchor.0 < 0 || anchor.0 >= 8 || ...` in
`othello.rs`; `Size(8, 8).contains` in `othello/board.rs`). -/
def inBounds (c : Pos) : Bool :=
  decide (0 ≤ c.1) && decide (c.1 < 8) && (decide (0 ≤ c.2) && decide (c.2 < 8))

/-- The loop of `Othello::find_anchor` of `othello.rs`: step by the
direction, abort on leaving the board or on an empty cell, stop successfully
on a cell of the player once an opposing cell was traversed.  The loop is
embedded with fuel 17: a scan from any on-board position along one of the 8
unit directions leaves the board after at most 8 steps, so the fuel is never
exhausted in any reachable call (for a degenerate zero direction, on which
the Rust loop would not terminate, the fuel yields `none`). -/
def findAnchorGo (board : Pos → Option Bool) (direction : Pos) (player : Bool) :
    Nat → Pos → Bool → Option Pos
  | 0, _, _ => none
  | fuel + 1, anchor, valid =>
    let a2 : Pos := (anchor.1 + direction.1, anchor.2 + direction.2)
    if ¬ inBounds a2 then none
    else match board a2 with
      | none => none
      | some p =>
        if p = player then (if valid then some a2 else none)
        else findAnchorGo board direction player fuel a2 true

/-- `Othello::find_anchor` of `othello.rs`. -/
def find_anchor (board : Pos → Option Bool) (coord direction : Pos) (player : Bool) :
    Option Pos :=
  findAnchorGo board direction player 17 coord false

/-- The flipping loop of `Othello::capture`: walk back from the anchor to the
played cell, flipping every cell strictly in between (same fuel argument). -/
def flipGo (player : Bool) (direction coord : Pos) :
    Nat → Pos → (Pos → Option Bool) → (Pos → Option Bool)
  | 0, _, b => b
  | fuel + 1, anchor, b =>
    let a2 : Pos := (anchor.1 - direction.1, anchor.2 - direction.2)
    if a2 = coord then b
    else flipGo player direction coord fuel a2 (Function.update b a2 (some player))

/-- `Othello::capture`: find an anchor for the current player and flip the
bracket. -/
def capture (g : Othello) (coord direction : Pos) : Bool × Othello :=
  match find_anchor g.board coord direction g.player with
  | some anchor => (true, { g with board := flipGo g.player direction coord 17 anchor g.board })
  | none => (false, g)

/-- `Othello::has_move`: some empty cell admits an anchor in some direction. -/
def has_move (board : Pos → Option Bool) (player : Bool) : Bool :=
  (List.range 8).any fun i => (List.range 8).any fun j =>
    decide (board ((i : Int), (j : Int)) = none) &&
      DIRECTIONS.any fun d => (find_anchor board ((i : Int), (j : Int)) d player).isSome

/-- The turn-advance logic at the end of `Othello::play`: the turn passes to
the opponent if they have a move; otherwise the game ends if the mover has
none either; otherwise nothing changes (forced pass of the opponent). -/
def applyTurn (g1 : Othello) : Othello :=
  if has_move g1.board (!g1.player) then { g1 with player := !g1.player }
  else if ¬ has_move g1.board g1.player then { g1 with game_over := true }
  else g1

/-- `Othello::play` of `othello.rs` (the `Board::play` of `othello/board.rs`
is identical apart from the anchor scan of C1): attempt a capture in each of
the 8 directions, and if any succeeded, place the mover's disc and advance
the turn. -/
def play (g : Othello) (coord : Nat × Nat) : Bool × Othello :=
  let c : Pos := ((coord.1 : Int), (coord.2 : Int))
  let acc := DIRECTIONS.foldl
    (fun (acc : Bool × Othello) d =>
      let r := capture acc.2 c d
      (acc.1 || r.1, r.2))
    (false, g)
  if acc.1 then
    (true, applyTurn { acc.2 with board := Function.update acc.2.board c (some acc.2.player) })
  else (false, g)

/-- Scan outcome of the `Board::find_anchor` loop of `othello/board.rs`:
either an out-of-bounds array read (a Rust index panic) or a normal return. -/
inductive ScanResult where
  | oob
  | ret (a : Option Pos)
deriving DecidableEq

/-- The loop of `Board::find_anchor` of `othello/board.rs`: the guard tests
the PRE-step coordinate, then the loop body steps and indexes the stepped
cell unconditionally, so a step that leaves the board reads out of bounds
(`ScanResult.oob`, an index panic in Rust).  Fuel as in `findAnchorGo`. -/
def findAnchorBGo (board : Pos → Option Bool) (direction : Pos) (player : Bool) :
    Nat → Pos → Bool → ScanResult
  | 0, _, _ => ScanResult.ret none
  | fuel + 1, coord, valid =>
    if inBounds coord then
      let c2 : Pos := (coord.1 + direction.1, coord.2 + direction.2)
      if ¬ inBounds c2 then ScanResult.oob
      else match board c2 with
        | none => ScanResult.ret none
        | some p =>
          if p = player then ScanResult.ret (if valid then some c2 else none)
          else findAnchorBGo board direction player fuel c2 true
    else ScanResult.ret (if valid then some coord else none)

/-- `Board::find_anchor` of `othello/board.rs`. -/
def find_anchorB (board : Pos → Option Bool) (coord direction : Pos) (player : Bool) :
    ScanResult :=
  findAnchorBGo board direction player 17 coord false

/-- A board with a single light disc in the corner. -/
def boardC1 : Pos → Option Bool :=
  fun c => if c = ((0 : Int), (0 : Int)) then some true else none

/-- C1 counterexample evaluation: scanning from the in-bounds cell `(0, 1)`
in direction `(0, -1)` for the dark player, `Board::find_anchor` of
`othello/board.rs` traverses the light disc at `(0, 0)` and then reads the
out-of-bounds cell `(0, -1)` — an index panic in Rust — where the claim says
the scan aborts with no anchor and never reads outside the board.  The
`othello.rs` revision of the same scan, which tests bounds after stepping
and before reading, returns no anchor on the same input. -/
theorem C1_find_anchor_reads_out_of_bounds :
    find_anchorB boardC1 ((0 : Int), (1 : Int)) ((0 : Int), (-1 : Int)) false = ScanResult.oob ∧
    find_anchor boardC1 ((0 : Int), (1 : Int)) ((0 : Int), (-1 : Int)) false = none := by
  constructor
  · decide
  · decide

end Oth

namespace Oth

/-- An occupied corner cell with a bracket running from it: `(0,0)` and
`(0,1)` light, `(0,2)` dark, dark to move. -/
def othelloC2 : Othello :=
  { player := false
    game_over := false
    board := fun c =>
      if c = ((0 : Int), (0 : Int)) then some true
      else if c = ((0 : Int), (1 : Int)) then some true
      else if c = ((0 : Int), (2 : Int)) then some false
      else none }

/-- C2 failing evaluation: `play` at the OCCUPIED cell `(0, 0)` is accepted —
`play` never checks that the played cell is empty, the anchor scan succeeds
from the occupied cell, the bracketed disc `(0, 1)` is flipped and the
occupied cell itself is overwritten with the mover's disc — where the claim
says a play on an occupied cell returns false and leaves the board
unchanged. -/
theorem C2_play_on_occupied_cell_accepted :
    othelloC2.board ((0 : Int), (0 : Int)) = some true ∧
    (play othelloC2 (0, 0)).1 = true ∧
    (play othelloC2 (0, 0)).2.board ((0 : Int), (1 : Int)) = some false ∧
    (play othelloC2 (0, 0)).2.board ((0 : Int), (0 : Int)) = some false := by
  refine ⟨by decide, ?_, ?_, ?_⟩
  · decide
  · decide
  · decide

end Oth

namespace Oth

lemma capture_player (g : Othello) (c d : Pos) : (capture g c d).2.player = g.player := by
  unfold capture
  cases find_anchor g.board c d g.player <;> rfl

lemma capture_game_over (g : Othello) (c d : Pos) :
    (capture g c d).2.game_over = g.game_over := by
  unfold capture
  cases find_anchor g.board c d g.player <;> rfl

lemma captureFold_player (ds : List Pos) (c : Pos) (acc : Bool × Othello) :
    ((ds.foldl (fun (acc : Bool × Othello) d =>
      let r := capture acc.2 c d
      (acc.1 || r.1, r.2)) acc).2).player = acc.2.player := by
  induction ds generalizing acc with
  | nil => rfl
  | cons d t ih =>
    rw [List.foldl_cons]
    exact (ih _).trans (capture_player _ _ _)

lemma captureFold_game_over (ds : List Pos) (c : Pos) (acc : Bool × Othello) :
    ((ds.foldl (fun (acc : Bool × Othello) d =>
      let r := capture acc.2 c d
      (acc.1 || r.1, r.2)) acc).2).game_over = acc.2.game_over := by
  induction ds generalizing acc with
  | nil => rfl
  | cons d t ih =>
    rw [List.foldl_cons]
    exact (ih _).trans (capture_game_over _ _ _)

/-- The specification-level statement that a player has at least one legal
move anywhere on the board: some in-bounds empty cell admits a successful
anchor search in some direction. -/
def HasLegalMove (board : Pos → Option Bool) (player : Bool) : Prop :=
  ∃ c : Pos, inBounds c = true ∧ board c = none ∧
    ∃ d ∈ DIRECTIONS, (find_anchor board c d player).isSome = true

/-- The double loop of `Othello::has_move` computes exactly `HasLegalMove`. -/
lemma has_move_iff (board : Pos → Option Bool) (player : Bool) :
    has_move board player = true ↔ HasLegalMove board player := by
  unfold has_move HasLegalMove
  simp only [List.any_eq_true, Bool.and_eq_true, decide_eq_true_eq, List.mem_range]
  constructor
  · rintro ⟨i, hi, j, hj, hnone, d, hd, hanchor⟩
    refine ⟨((i : Int), (j : Int)), ?_, hnone, d, hd, hanchor⟩
    unfold inBounds
    simp only [Bool.and_eq_true, decide_eq_true_eq]
    omega
  · rintro ⟨c, hb, hnone, d, hd, ha⟩
    obtain ⟨a, b⟩ := c
    unfold inBounds at hb
    simp only [Bool.and_eq_true, decide_eq_true_eq] at hb
    have hab : (((a.toNat : Nat) : Int), ((b.toNat : Nat) : Int)) = ((a : Int), (b : Int)) := by
      rw [Prod.mk.injEq]
      constructor <;> omega
    refine ⟨a.toNat, by omega, b.toNat, by omega, ?_, d, hd, ?_⟩
    · rw [hab]
      exact hnone
    · rw [hab]
      exact ha

lemma applyTurn_board (g1 : Othello) : (applyTurn g1).board = g1.board := by
  unfold applyTurn
  split_ifs <;> rfl

lemma applyTurn_spec (g1 : Othello) :
    (has_move g1.board (!g1.player) = true →
      (applyTurn g1).player = !g1.player ∧ (applyTurn g1).game_over = g1.game_over) ∧
    (has_move g1.board (!g1.player) = false → has_move g1.board g1.player = false →
      (applyTurn g1).player = g1.player ∧ (applyTurn g1).game_over = true) ∧
    (has_move g1.board (!g1.player) = false → has_move g1.board g1.player = true →
      applyTurn g1 = g1) := by
  unfold applyTurn
  refine ⟨?_, ?_, ?_⟩
  · intro h1
    rw [if_pos h1]
    exact ⟨rfl, rfl⟩
  · intro h1 h2
    rw [if_neg (by rw [h1]; exact Bool.false_ne_true), if_pos (by rw [h2]; exact Bool.false_ne_true)]
    exact ⟨rfl, rfl⟩
  · intro h1 h2
    rw [if_neg (by rw [h1]; exact Bool.false_ne_true), if_neg (by rw [h2]; simp)]

end Oth

namespace Oth

/-- C7 (amended): after a move `play` accepts, if the other player has at
least one legal move anywhere on the board, the current player flips (and
`game_over` is unchanged); otherwise, if the mover has no legal move
remaining either, `game_over` becomes true (and the player is unchanged);
otherwise only the mover still has a move, the current player is unchanged
and `game_over` is unchanged — in particular it remains false whenever it was
false before the move, but it is NOT reset to false on a board whose
`game_over` flag was already set (the counterexample shows the original
"remains false" reading fails there). -/
theorem C7_turn_advance_amended (g : Othello) (coord : Nat × Nat)
    (hv : (play g coord).1 = true) :
    (HasLegalMove (play g coord).2.board (!g.player) →
      (play g coord).2.player = !g.player ∧ (play g coord).2.game_over = g.game_over) ∧
    (¬ HasLegalMove (play g coord).2.board (!g.player) →
      ¬ HasLegalMove (play g coord).2.board g.player →
      (play g coord).2.player = g.player ∧ (play g coord).2.game_over = true) ∧
    (¬ HasLegalMove (play g coord).2.board (!g.player) →
      HasLegalMove (play g coord).2.board g.player →
      (play g coord).2.player = g.player ∧ (play g coord).2.game_over = g.game_over) := by
  unfold play at hv ⊢
  set c : Pos := ((coord.1 : Int), (coord.2 : Int)) with hcpos
  set acc := DIRECTIONS.foldl
    (fun (acc : Bool × Othello) d =>
      let r := capture acc.2 c d
      (acc.1 || r.1, r.2))
    (false, g) with haccdef
  by_cases hb : acc.1 = true
  · rw [if_pos hb] at hv ⊢
    set g1 : Othello :=
      { acc.2 with board := Function.update acc.2.board c (some acc.2.player) } with hg1
    have hp : g1.player = g.player := by
      show acc.2.player = g.player
      rw [haccdef]
      exact captureFold_player DIRECTIONS c (false, g)
    have hgo : g1.game_over = g.game_over := by
      show acc.2.game_over = g.game_over
      rw [haccdef]
      exact captureFold_game_over DIRECTIONS c (false, g)
    have hboard : (true, applyTurn g1).2.board = g1.board := applyTurn_board g1
    obtain ⟨hA, hB, hC⟩ := applyTurn_spec g1
    refine ⟨?_, ?_, ?_⟩
    · intro hmv
      rw [hboard] at hmv
      have hmv' : has_move g1.board (!g1.player) = true := by
        rw [hp]
        exact (has_move_iff g1.board (!g.player)).mpr hmv
      obtain ⟨h1, h2⟩ := hA hmv'
      exact ⟨by rw [h1, hp], by rw [h2, hgo]⟩
    · intro hmv1 hmv2
      rw [hboard] at hmv1 hmv2
      have h1 : has_move g1.board (!g1.player) = false := by
        rw [hp]
        cases hx : has_move g1.board (!g.player)
        · rfl
        · exact absurd ((has_move_iff g1.board (!g.player)).mp hx) hmv1
      have h2 : has_move g1.board g1.player = false := by
        rw [hp]
        cases hx : has_move g1.board g.player
        · rfl
        · exact absurd ((has_move_iff g1.board g.player).mp hx) hmv2
      obtain ⟨h3, h4⟩ := hB h1 h2
      exact ⟨by rw [h3, hp], h4⟩
    · intro hmv1 hmv2
      rw [hboard] at hmv1 hmv2
      have h1 : has_move g1.board (!g1.player) = false := by
        rw [hp]
        cases hx : has_move g1.board (!g.player)
        · rfl
        · exact absurd ((has_move_iff g1.board (!g.player)).mp hx) hmv1
      have h2 : has_move g1.board g1.player = true := by
        rw [hp]
        exact (has_move_iff g1.board g.player).mpr hmv2
      have h3 := hC h1 h2
      show (applyTurn g1).player = g.player ∧ (applyTurn g1).game_over = g.game_over
      rw [h3, hp, hgo]
      exact ⟨rfl, rfl⟩
  · rw [if_neg hb] at hv
    exact absurd hv (by simp)

/-- The C7 counterexample position: dark to move, `game_over` already set;
dark plays `(0, 0)`, after which light has no legal move while dark still
has one. -/
def othelloC7 : Othello :=
  { player := false
    game_over := true
    board := fun c =>
      if c = ((0 : Int), (1 : Int)) then some true
      else if c = ((0 : Int), (2 : Int)) then some false
      else if c = ((1 : Int), (0 : Int)) then some false
      else if c = ((2 : Int), (0 : Int)) then some true
      else none }

/-- C7 counterexample: `play` accepts the move, afterwards the opponent has
no legal move and the mover still has one (the forced-pass case), yet
`game_over` is `true`, not `false` as the claim states — `play` never resets
the flag and never checks it, so on a board whose `game_over` flag is set the
"game_over remains false" part of the claim fails. -/
theorem C7_turn_advance_counterexample :
    (play othelloC7 (0, 0)).1 = true ∧
    has_move (play othelloC7 (0, 0)).2.board (!othelloC7.player) = false ∧
    has_move (play othelloC7 (0, 0)).2.board othelloC7.player = true ∧
    (play othelloC7 (0, 0)).2.player = othelloC7.player ∧
    (play othelloC7 (0, 0)).2.game_over = true := by
  refine ⟨?_, ?_, ?_, ?_, ?_⟩
  · decide
  · decide
  · decide
  · decide
  · decide

theorem C7_turn_advance_amended_witness :
    (play Othello.new (2, 3)).2.player = true := by
  have h := (C7_turn_advance_amended Othello.new (2, 3) (by decide)).1
  have hm : has_move (play Othello.new (2, 3)).2.board (!Othello.new.player) = true := by
    decide
  have hres := h ((has_move_iff _ _).mp hm)
  exact hres.1

end Oth

namespace Coop

/-- `enum GameState` of `grid_game.rs`. -/
inductive GameState where
  | Normal
  | Solved
  | GameOver
deriving DecidableEq

abbrev Coord : Type := Nat × Nat

/-- The `GridGame` trait of `grid_game.rs`, as a record of operations over an
abstract game type `γ` (with `κ` the rendered-keyboard type). -/
structure GridGameOps (γ : Type) (κ : Type) where
  get_state : γ → GameState
  get_text : γ → String
  interact : γ → Coord → Bool × γ
  to_inline_keyboard : γ → κ

/-- `struct InteractResult` of `game.rs`. -/
structure InteractResult (κ : Type) where
  update_text : Option String
  update_board : Option κ
  game_end : Bool

/-- `struct CoopGame` of `coop_game.rs`.  The `HashMap<String, u32>` of
per-actor accepted-move counters is embedded as an association list whose
order stands for the (arbitrary) iteration order of the hash map. -/
structure CoopGame (γ : Type) where
  game : γ
  interactions : List (String × Nat)

/-- The counter update of `CoopGame::interact`: bump the actor's entry in
place, or insert a fresh entry with count 1 (a hash map inserts at an
arbitrary position; the embedding appends). -/
def bump (l : List (String × Nat)) (name : String) : List (String × Nat) :=
  match l with
  | [] => [(name, 1)]
  | (n, k) :: t => if n = name then (n, k + 1) :: t else (n, k) :: bump t name

/-- `interactions.get(username).unwrap()`: the count stored for a name. -/
def lookupCount (l : List (String × Nat)) (name : String) : Nat :=
  match l with
  | [] => 0
  | (n, k) :: t => if n = name then k else lookupCount t name

/-- The one-line-per-actor part of the summary: the concatenation, in
iteration order, of one line per actor holding its name and move count. -/
def linesText : List (String × Nat) → String
  | [] => ""
  | p :: t => (p.1 ++ " - " ++ toString p.2 ++ " moves\n") ++ linesText t

/-- The summary loop of `CoopGame::interact`: build the per-actor lines while
tracking `largest_count` and `top_contributor`. -/
def summaryFold (l : List (String × Nat)) : String × Nat × String :=
  l.foldl
    (fun (acc : String × Nat × String) p =>
      (acc.1 ++ (p.1 ++ " - " ++ toString p.2 ++ " moves\n"),
        if p.2 > acc.2.1 then (p.2, p.1) else acc.2))
    ("", 0, "")

/-- The four-way narrative line of `CoopGame::interact`. -/
def finalLine (state : GameState) (username top : String) (isTop : Bool) : String :=
  if isTop then
    if state = GameState.Solved then username ++ " has won the game!"
    else "Boom, " ++ username ++ " is dead!"
  else
    if state = GameState.Solved then username ++ " has snatched it from " ++ top ++ "!"
    else username ++ " has ruined it for " ++ top ++ "!"

/-- `CoopGame::interact` of `coop_game.rs`. -/
def CoopGame.interact {γ κ : Type} (ops : GridGameOps γ κ) (cg : CoopGame γ)
    (coord : Coord) (username : String) :
    Option (InteractResult κ) × CoopGame γ :=
  let r := ops.interact cg.game coord
  if r.1 then
    let l1 := bump cg.interactions username
    let keyboard_markup := ops.to_inline_keyboard r.2
    let state := ops.get_state r.2
    if state = GameState.Normal then
      (some ⟨some (ops.get_text r.2), some keyboard_markup, false⟩, ⟨r.2, l1⟩)
    else
      let s := summaryFold l1
      let summary := s.1 ++
        finalLine state username s.2.2 (decide (lookupCount l1 username = s.2.1))
      (some ⟨some summary, some keyboard_markup, true⟩, ⟨r.2, l1⟩)
  else (none, cg)

lemma summaryFold_go_text (l : List (String × Nat)) :
    ∀ acc : String × Nat × String,
      (l.foldl (fun (acc : String × Nat × String) p =>
        (acc.1 ++ (p.1 ++ " - " ++ toString p.2 ++ " moves\n"),
          if p.2 > acc.2.1 then (p.2, p.1) else acc.2)) acc).1 = acc.1 ++ linesText l := by
  induction l with
  | nil =>
    intro acc
    rw [List.foldl_nil]
    show acc.1 = acc.1 ++ ""
    rw [String.append_empty]
  | cons p t ih =>
    intro acc
    rw [List.foldl_cons, ih]
    show (acc.1 ++ (p.1 ++ " - " ++ toString p.2 ++ " moves\n")) ++ linesText t =
      acc.1 ++ ((p.1 ++ " - " ++ toString p.2 ++ " moves\n") ++ linesText t)
    rw [String.append_assoc]

lemma summaryFold_go_ub (l : List (String × Nat)) :
    ∀ acc : String × Nat × String,
      acc.2.1 ≤ (l.foldl (fun (acc : String × Nat × String) p =>
        (acc.1 ++ (p.1 ++ " - " ++ toString p.2 ++ " moves\n"),
          if p.2 > acc.2.1 then (p.2, p.1) else acc.2)) acc).2.1 ∧
      ∀ p ∈ l, p.2 ≤ (l.foldl (fun (acc : String × Nat × String) p =>
        (acc.1 ++ (p.1 ++ " - " ++ toString p.2 ++ " moves\n"),
          if p.2 > acc.2.1 then (p.2, p.1) else acc.2)) acc).2.1 := by
  induction l with
  | nil =>
    intro acc
    exact ⟨le_refl _, by intro p hp; cases hp⟩
  | cons q t ih =>
    intro acc
    rw [List.foldl_cons]
    obtain ⟨ih1, ih2⟩ := ih
      ((acc.1 ++ (q.1 ++ " - " ++ toString q.2 ++ " moves\n"),
        if q.2 > acc.2.1 then (q.2, q.1) else acc.2))
    have hstep : acc.2.1 ≤ (if q.2 > acc.2.1 then (q.2, q.1) else acc.2).1 := by
      split_ifs with h
      · omega
      · exact le_refl _
    have hq : q.2 ≤ (if q.2 > acc.2.1 then (q.2, q.1) else acc.2).1 := by
      split_ifs with h
      · exact le_refl _
      · omega
    refine ⟨le_trans hstep ih1, ?_⟩
    intro p hp
    rcases List.mem_cons.mp hp with rfl | hpt
    · exact le_trans hq ih1
    · exact ih2 p hpt

lemma summaryFold_go_attained (l : List (String × Nat)) :
    ∀ acc : String × Nat × String,
      (l.foldl (fun (acc : String × Nat × String) p =>
        (acc.1 ++ (p.1 ++ " - " ++ toString p.2 ++ " moves\n"),
          if p.2 > acc.2.1 then (p.2, p.1) else acc.2)) acc).2 = acc.2 ∨
      ∃ p ∈ l, (l.foldl (fun (acc : String × Nat × String) p =>
        (acc.1 ++ (p.1 ++ " - " ++ toString p.2 ++ " moves\n"),
          if p.2 > acc.2.1 then (p.2, p.1) else acc.2)) acc).2 = (p.2, p.1) := by
  induction l with
  | nil =>
    intro acc
    exact Or.inl rfl
  | cons q t ih =>
    intro acc
    rw [List.foldl_cons]
    by_cases hgt : q.2 > acc.2.1
    · rw [if_pos hgt]
      rcases ih ((acc.1 ++ (q.1 ++ " - " ++ toString q.2 ++ " moves\n"), (q.2, q.1)))
        with h | ⟨p, hp, hpv⟩
      · exact Or.inr ⟨q, List.mem_cons_self q t, h⟩
      · exact Or.inr ⟨p, List.mem_cons_of_mem q hp, hpv⟩
    · rw [if_neg hgt]
      rcases ih ((acc.1 ++ (q.1 ++ " - " ++ toString q.2 ++ " moves\n"), acc.2))
        with h | ⟨p, hp, hpv⟩
      · exact Or.inl h
      · exact Or.inr ⟨p, List.mem_cons_of_mem q hp, hpv⟩

lemma bump_lookup_mem (l : List (String × Nat)) (name : String) :
    (name, lookupCount (bump l name) name) ∈ bump l name := by
  induction l with
  | nil =>
    unfold bump lookupCount
    simp
  | cons q t ih =>
    obtain ⟨n, k⟩ := q
    unfold bump
    by_cases h : n = name
    · subst h
      rw [if_pos rfl]
      unfold lookupCount
      rw [if_pos rfl]
      exact List.mem_cons_self _ _
    · rw [if_neg h]
      unfold lookupCount
      rw [if_neg h]
      exact List.mem_cons_of_mem _ ih

lemma summaryFold_text (l : List (String × Nat)) : (summaryFold l).1 = linesText l := by
  unfold summaryFold
  rw [summaryFold_go_text l ("", 0, "")]
  exact String.empty_append _

lemma summaryFold_ub (l : List (String × Nat)) :
    ∀ p ∈ l, p.2 ≤ (summaryFold l).2.1 := by
  unfold summaryFold
  exact (summaryFold_go_ub l ("", 0, "")).2

lemma summaryFold_top (l : List (String × Nat)) :
    (summaryFold l).2 = (0, "") ∨ ∃ p ∈ l, (summaryFold l).2 = (p.2, p.1) := by
  unfold summaryFold
  exact summaryFold_go_attained l ("", 0, "")

/-- C8: when an accepted move takes the wrapped game out of the `Normal` state,
`CoopGame::interact` returns a result ending the game whose text is the
per-actor move-count listing followed by exactly one of four narrative lines,
selected by the game state and by whether the acting actor's recorded count is
maximal among all actors; in the not-maximal cases the narrated top contributor
really is an actor whose count is maximal. -/
theorem C8_coop_narration {γ κ : Type} (ops : GridGameOps γ κ) (cg : CoopGame γ)
    (coord : Coord) (username : String)
    (haccept : (ops.interact cg.game coord).1 = true)
    (hstate : ops.get_state (ops.interact cg.game coord).2 ≠ GameState.Normal) :
    ∃ r : InteractResult κ,
      CoopGame.interact ops cg coord username =
        (some r, ⟨(ops.interact cg.game coord).2, bump cg.interactions username⟩) ∧
      r.game_end = true ∧
      r.update_board = some (ops.to_inline_keyboard (ops.interact cg.game coord).2) ∧
      r.update_text = some (linesText (bump cg.interactions username) ++
        (if ∀ p ∈ bump cg.interactions username,
            p.2 ≤ lookupCount (bump cg.interactions username) username then
          (if ops.get_state (ops.interact cg.game coord).2 = GameState.Solved then
            username ++ " has won the game!"
          else "Boom, " ++ username ++ " is dead!")
        else
          (if ops.get_state (ops.interact cg.game coord).2 = GameState.Solved then
            username ++ " has snatched it from " ++
              (summaryFold (bump cg.interactions username)).2.2 ++ "!"
          else
            username ++ " has ruined it for " ++
              (summaryFold (bump cg.interactions username)).2.2 ++ "!"))) ∧
      ((¬ ∀ p ∈ bump cg.interactions username,
          p.2 ≤ lookupCount (bump cg.interactions username) username) →
        ∃ p ∈ bump cg.interactions username,
          p.1 = (summaryFold (bump cg.interactions username)).2.2 ∧
          ∀ q ∈ bump cg.interactions username, q.2 ≤ p.2) := by
  have hub := summaryFold_ub (bump cg.interactions username)
  have hmem := bump_lookup_mem cg.interactions username
  have hiff : (lookupCount (bump cg.interactions username) username
      = (summaryFold (bump cg.interactions username)).2.1) ↔
      ∀ p ∈ bump cg.interactions username,
        p.2 ≤ lookupCount (bump cg.interactions username) username := by
    constructor
    · intro h p hp
      rw [h]
      exact hub p hp
    · intro h
      refine le_antisymm (hub _ hmem) ?_
      rcases summaryFold_top (bump cg.interactions username) with h0 | ⟨p, hp, hpv⟩
      · rw [h0]
        exact Nat.zero_le _
      · rw [hpv]
        exact h p hp
  have hint : CoopGame.interact ops cg coord username =
      (some ⟨some ((summaryFold (bump cg.interactions username)).1 ++
          finalLine (ops.get_state (ops.interact cg.game coord).2) username
            (summaryFold (bump cg.interactions username)).2.2
            (decide (lookupCount (bump cg.interactions username) username =
              (summaryFold (bump cg.interactions username)).2.1))),
        some (ops.to_inline_keyboard (ops.interact cg.game coord).2), true⟩,
       ⟨(ops.interact cg.game coord).2, bump cg.interactions username⟩) := by
    unfold CoopGame.interact
    rw [if_pos haccept, if_neg hstate]
  refine ⟨_, hint, rfl, rfl, ?_, ?_⟩
  · rw [summaryFold_text]
    by_cases htop : ∀ p ∈ bump cg.interactions username,
        p.2 ≤ lookupCount (bump cg.interactions username) username
    · rw [if_pos htop, decide_eq_true (hiff.mpr htop)]
      unfold finalLine
      rw [if_pos rfl]
    · rw [if_neg htop, decide_eq_false (fun h => htop (hiff.mp h))]
      unfold finalLine
      rw [if_neg (by simp)]
  · intro htop
    rcases summaryFold_top (bump cg.interactions username) with h0 | ⟨p, hp, hpv⟩
    · refine absurd (fun q hq => ?_) htop
      have h1 := hub q hq
      rw [h0] at h1
      exact le_trans h1 (Nat.zero_le _)
    · refine ⟨p, hp, by rw [hpv], fun q hq => ?_⟩
      have := hub q hq
      rw [hpv] at this
      exact this

/-- A minimal concrete game for exercising `CoopGame.interact`: every
interaction is accepted and leaves the game solved. -/
def demoOps : GridGameOps Bool Unit where
  get_state := fun _ => GameState.Solved
  get_text := fun _ => "demo"
  interact := fun g _ => (true, g)
  to_inline_keyboard := fun _ => ()

def demoCoop : CoopGame Bool := ⟨true, [("alice", 2)]⟩

theorem C8_coop_narration_witness :
    (demoOps.interact demoCoop.game (0, 0)).1 = true ∧
    demoOps.get_state (demoOps.interact demoCoop.game (0, 0)).2 ≠ GameState.Normal ∧
    ∃ r : InteractResult Unit,
      CoopGame.interact demoOps demoCoop (0, 0) "bob" =
        (some r, ⟨(demoOps.interact demoCoop.game (0, 0)).2, bump demoCoop.interactions "bob"⟩) ∧
      r.game_end = true ∧
      r.update_board = some (demoOps.to_inline_keyboard (demoOps.interact demoCoop.game (0, 0)).2) ∧
      r.update_text = some (linesText (bump demoCoop.interactions "bob") ++
        (if ∀ p ∈ bump demoCoop.interactions "bob",
            p.2 ≤ lookupCount (bump demoCoop.interactions "bob") "bob" then
          (if demoOps.get_state (demoOps.interact demoCoop.game (0, 0)).2 = GameState.Solved then
            "bob" ++ " has won the game!"
          else "Boom, " ++ "bob" ++ " is dead!")
        else
          (if demoOps.get_state (demoOps.interact demoCoop.game (0, 0)).2 = GameState.Solved then
            "bob" ++ " has snatched it from " ++
              (summaryFold (bump demoCoop.interactions "bob")).2.2 ++ "!"
          else
            "bob" ++ " has ruined it for " ++
              (summaryFold (bump demoCoop.interactions "bob")).2.2 ++ "!"))) ∧
      ((¬ ∀ p ∈ bump demoCoop.interactions "bob",
          p.2 ≤ lookupCount (bump demoCoop.interactions "bob") "bob") →
        ∃ p ∈ bump demoCoop.interactions "bob",
          p.1 = (summaryFold (bump demoCoop.interactions "bob")).2.2 ∧
          ∀ q ∈ bump demoCoop.interactions "bob", q.2 ≤ p.2) :=
  ⟨rfl, by decide, C8_coop_narration demoOps demoCoop (0, 0) "bob" rfl (by decide)⟩

end Coop
